import Mathlib

/-!
# Verification development for the web crawler (`brightedge-go-crawler`)

Shallow embedding of

* `internal/classifier/classifier.go` (`Classify`, `TopTopics`),
* `internal/crawler/crawler.go` (`HTTPClient.Fetch`),
* `internal/parser/parser.go` (`Parser.Extract`),
* the collect-mode orchestration of `cmd/cli/main.go` and `cmd/server/main.go`.

Conventions of the embedding.

* A Go `string` is modelled by the list of its runes (`GoString`); only strings
  holding valid UTF-8 are covered.
* The Go standard library tables `unicode.IsLetter`, `unicode.IsNumber` and
  `unicode.ToLower` are a parameter (`UnicodeTables`) of every definition that
  uses them.
* A Go `map[string]T` is modelled by an association list with distinct keys.
* A run-time panic is modelled by `Except.error`.
-/

namespace WebCrawler

/-! ## Strings -/

/-- A Go string holding valid UTF-8, as the sequence of its runes. -/
abbrev GoString := List Char

/-- The rune tables of Go's `unicode` package used by the classifier. -/
structure UnicodeTables where
  /-- `unicode.IsLetter` -/
  IsLetter : Char → Bool
  /-- `unicode.IsNumber` -/
  IsNumber : Char → Bool
  /-- `unicode.ToLower` -/
  ToLower : Char → Char

/-- The rune tables restricted to ASCII and to the CJK Unified Ideographs block
(U+4E00..U+9FFF, all of category Lo, without case). On these runes the answers
are those of Go's `unicode` package; every other rune is answered as a caseless
non-letter, so this table is only used on inputs made of such runes. -/
def basicTables : UnicodeTables where
  IsLetter := fun c => c.isAlpha || (0x4E00 ≤ c.toNat && c.toNat ≤ 0x9FFF)
  IsNumber := fun c => c.isDigit
  ToLower := fun c => c.toLower

/-- `strings.ToLower` on a valid UTF-8 string: `unicode.ToLower` rune by rune. -/
def ToLower (U : UnicodeTables) (s : GoString) : GoString :=
  s.map U.ToLower

/-- `strings.Contains(s, sub)`. -/
def Contains : GoString → GoString → Bool
  | [], sub => sub.isEmpty
  | c :: cs, sub => sub.isPrefixOf (c :: cs) || Contains cs sub

/-- `strings.Join(elems, sep)`. -/
def Join : List GoString → GoString → GoString
  | [], _ => []
  | [a], _ => a
  | a :: b :: rest, sep => a ++ sep ++ Join (b :: rest) sep

/-- `len(s)` of a Go string: its number of bytes in UTF-8. -/
def byteLen (s : GoString) : Nat :=
  (s.map Char.utf8Size).sum

/-- The `<` of Go strings. Go compares byte-wise; on valid UTF-8 that is the
lexicographic order of the code points. -/
def strLt : GoString → GoString → Bool
  | _, [] => false
  | [], _ :: _ => true
  | a :: as, b :: bs => a.toNat < b.toNat || (a == b && strLt as bs)

/-- `strings.FieldsFunc`: the maximal non-empty runs of runes not satisfying
`f`; `cur` holds the run being read, reversed. -/
def fieldsAux (f : Char → Bool) : List Char → List Char → List GoString
  | [], cur => if cur.isEmpty then [] else [cur.reverse]
  | c :: cs, cur =>
    if f c then
      if cur.isEmpty then fieldsAux f cs [] else cur.reverse :: fieldsAux f cs []
    else fieldsAux f cs (c :: cur)

/-- `strings.FieldsFunc(s, f)`. -/
def FieldsFunc (s : GoString) (f : Char → Bool) : List GoString :=
  fieldsAux f s []

/-! ## Regular expressions (the fragment of RE2 the patterns use) -/

/-- One-rune matchers. -/
inductive Atom where
  | lit (c : Char)
  | cls (cs : List Char)
  | space
  | digit
deriving DecidableEq, Repr

/-- An atom, optionally quantified. -/
inductive Item where
  | one (a : Atom)
  | opt (a : Atom)
  | plus (a : Atom)
deriving DecidableEq, Repr

/-- A pattern: alternatives of item sequences, with the `(?i)` flag. -/
structure Regexp where
  foldCase : Bool
  alts : List (List Item)

/-- Perl class `\s` of RE2: `[\t\n\f\r ]`. -/
def isSpaceRE (c : Char) : Bool :=
  c == '\t' || c == '\n' || c == '\x0c' || c == '\r' || c == ' '

/-- Perl class `\d` of RE2: `[0-9]`. -/
def isDigitRE (c : Char) : Bool :=
  '0'.toNat ≤ c.toNat && c.toNat ≤ '9'.toNat

/-- Runes matched by the lower-case ASCII letter `p` under `(?i)`: its simple
case-folding orbit, which beyond the two ASCII cases holds U+212A (Kelvin sign)
for `k` and U+017F (long s) for `s`. -/
def foldEq (p c : Char) : Bool :=
  c == p || c == p.toUpper || (p == 'k' && c.toNat == 0x212A) || (p == 's' && c.toNat == 0x017F)

/-- Whether atom `a` matches rune `c`. -/
def Atom.matches (fold : Bool) : Atom → Char → Bool
  | .lit p, c => if fold then foldEq p c else c == p
  | .cls cs, c => cs.contains c
  | .space, c => isSpaceRE c
  | .digit, c => isDigitRE c

/-- One or more runes satisfying `p`, then the continuation `k`. -/
def matchPlus (p : Char → Bool) (k : List Char → Bool) : List Char → Bool
  | [] => false
  | c :: cs => p c && (k cs || matchPlus p k cs)

/-- Whether the item sequence matches a prefix of the text. -/
def matchItems (fold : Bool) : List Item → List Char → Bool
  | [], _ => true
  | .one a :: ps, t =>
    match t with
    | c :: cs => a.matches fold c && matchItems fold ps cs
    | [] => false
  | .opt a :: ps, t =>
    matchItems fold ps t ||
      match t with
      | c :: cs => a.matches fold c && matchItems fold ps cs
      | [] => false
  | .plus a :: ps, t => matchPlus (a.matches fold) (matchItems fold ps) t

/-- Whether some alternative matches at the start of the text. -/
def Regexp.matchesAt (re : Regexp) (t : List Char) : Bool :=
  re.alts.any (fun alt => matchItems re.foldCase alt t)

/-- `re.FindStringIndex(text) != nil`: the pattern matches somewhere. -/
def Regexp.found (re : Regexp) : List Char → Bool
  | [] => re.matchesAt []
  | c :: cs => re.matchesAt (c :: cs) || re.found cs

/-- The literal items of a word. -/
def word (s : String) : List Item :=
  s.toList.map (fun c => Item.one (Atom.lit c))

/-- The item `\s+`. -/
def spaces : List Item := [Item.plus Atom.space]

/-- Pattern `[$€£₹]\s?\d`. -/
def priceRe : Regexp where
  foldCase := false
  alts := [[Item.one (Atom.cls ['$', '€', '£', '₹']), Item.opt Atom.space, Item.one Atom.digit]]

/-- Pattern `(?i)add\s+to\s+cart|buy\s+now|checkout`. -/
def cartRe : Regexp where
  foldCase := true
  alts := [word "add" ++ spaces ++ word "to" ++ spaces ++ word "cart",
           word "buy" ++ spaces ++ word "now",
           word "checkout"]

/-- Pattern `(?i)author|byline|published|updated|minutes\s+read|subscribe`. -/
def articleRe : Regexp where
  foldCase := true
  alts := [word "author", word "byline", word "published", word "updated",
           word "minutes" ++ spaces ++ word "read", word "subscribe"]

/-! ## Data model (`internal/models/types.go`) -/

/-- Go `map[string]string`, as an association list. -/
abbrev StrMap := List (GoString × GoString)

/-- Map index expression `m[k]` with the comma-ok result. -/
def StrMap.get? (m : StrMap) (k : GoString) : Option GoString :=
  m.lookup k

/-- Map index expression `m[k]`: the zero value `""` for an absent key. -/
def StrMap.get (m : StrMap) (k : GoString) : GoString :=
  (m.lookup k).getD []

structure Meta where
  Title : GoString := []
  Description : GoString := []
  Keywords : List GoString := []
  OG : StrMap := []
  Canonical : GoString := []
  H1 : GoString := []
  H2 : List GoString := []

structure Content where
  Text : GoString := []
  WordCount : Int := 0
  Language : GoString := []
  Headings : List GoString := []

structure Page where
  Meta : Meta := {}
  Content : Content := {}

/-- `Reason` lists the entries of the Go map in the order the code inserts
them; the keys are distinct by construction. -/
structure Classification where
  Label : String
  Reason : List (String × String)
deriving DecidableEq, Repr

/-! ## `Classifier.Classify` -/

/-- The string the text patterns are evaluated on (line 29). -/
def classifyText (U : UnicodeTables) (p : Page) : GoString :=
  ToLower U (p.Content.Text ++ " ".toList ++ Join p.Content.Headings " ".toList)

/-- Lines 39: `og:type` is present and its lower-cased value contains "product". -/
def ogProduct (U : UnicodeTables) (p : Page) : Bool :=
  (p.Meta.OG.get? "og:type".toList).isSome &&
    Contains (ToLower U (p.Meta.OG.get "og:type".toList)) "product".toList

/-- Line 47: the lower-cased `og:type` value contains "article". -/
def ogArticle (U : UnicodeTables) (p : Page) : Bool :=
  Contains (ToLower U (p.Meta.OG.get "og:type".toList)) "article".toList

/-- The product signals recorded in `reason` (lines 33-41). -/
def productReason (U : UnicodeTables) (p : Page) : List (String × String) :=
  let text := classifyText U p
  let reason : List (String × String) := []
  let reason := if priceRe.found text then reason ++ [("price", "currency-like price detected")] else reason
  let reason := if cartRe.found text then reason ++ [("cart", "ecommerce CTA found")] else reason
  let reason := if ogProduct U p then reason ++ [("og:type", "og:type indicates product")] else reason
  reason

/-- `Classifier.Classify`. -/
def Classify (U : UnicodeTables) (p : Page) : Classification :=
  let text := classifyText U p
  let reason := productReason U p
  if reason.length > 0 then
    { Label := "product", Reason := reason }
  else if ogArticle U p || articleRe.found text then
    { Label := "news", Reason := reason ++ [("article", "article-like markers")] }
  else if Contains text "blog".toList || Contains (ToLower U p.Meta.Title) "blog".toList then
    { Label := "blog", Reason := reason ++ [("blog", "blog marker in title/content")] }
  else
    { Label := "other", Reason := reason }

/-! ## `Classifier.TopTopics` -/

/-- The stopword set (lines 18-22). -/
def stopwords : List GoString :=
  ["the", "and", "of", "to", "in", "a", "for", "is", "on", "with", "as",
   "by", "at", "from", "that", "this", "it", "an", "be", "or", "are", "was",
   "will", "has", "have", "had", "but", "not", "your", "you", "we", "our"].map String.toList

/-- The separator predicate `token` of line 65. -/
def token (U : UnicodeTables) (r : Char) : Bool :=
  !U.IsLetter r && !U.IsNumber r

/-- Line 66: `strings.FieldsFunc(strings.ToLower(text), token)`. -/
def words (U : UnicodeTables) (text : GoString) : List GoString :=
  FieldsFunc (ToLower U text) (token U)

/-- Go `map[string]int`, as an association list with distinct keys. -/
abbrev FreqMap := List (GoString × Nat)

/-- The statement `freq[w]++`. -/
def incr : FreqMap → GoString → FreqMap
  | [], w => [(w, 1)]
  | (k, v) :: rest, w => if k = w then (k, v + 1) :: rest else (k, v) :: incr rest w

/-- The body of the loop of lines 68-76. -/
def countStep (freq : FreqMap) (w : GoString) : FreqMap :=
  if byteLen w < 3 then freq
  else if stopwords.contains w then freq
  else incr freq w

/-- The map `freq` after the loop of lines 68-76. -/
def freqMap (U : UnicodeTables) (text : GoString) : FreqMap :=
  (words U text).foldl countStep []

/-- The local type `kv` of line 78. -/
structure kv where
  K : GoString
  V : Nat
deriving DecidableEq, Repr

/-- The comparator passed to `sort.Slice` (lines 86-91). -/
def less (a b : kv) : Bool :=
  if a.V = b.V then strLt a.K b.K else decide (a.V > b.V)

/-- The order `sort.Slice` establishes: `b` may follow `a` when `less b a` fails. -/
def notAfter (a b : kv) : Prop := less b a = false

instance : DecidableRel notAfter := fun a b => inferInstanceAs (Decidable (less b a = false))

/-- `sort.Slice(list, less)`, as an insertion sort. The library sort is not
stable; `sorted_unique` shows that every sorted arrangement of the same entries
is this one. -/
def sortSlice (list : List kv) : List kv :=
  list.insertionSort notAfter

/-- Lines 92-99 on the sorted slice: clamp `n`, allocate, copy the first `n`
keys. `make([]string, 0, n)` panics for a negative capacity; the loop reads
`list[i]` for `0 ≤ i < n ≤ len(list)` only. -/
def firstN (list : List kv) (n : Int) : Except String (List GoString) :=
  let n := if n > (list.length : Int) then (list.length : Int) else n
  if n < 0 then Except.error "panic: runtime error: makeslice: cap out of range"
  else Except.ok ((list.take n.toNat).map kv.K)

/-- Lines 86-99 on the slice `list` read off the map in some iteration order. -/
def topOfList (list : List kv) (n : Int) : Except String (List GoString) :=
  firstN (sortSlice list) n

/-- The slice `list` of lines 82-85, in the order the model keeps the map. -/
def kvList (U : UnicodeTables) (text : GoString) : List kv :=
  (freqMap U text).map (fun e => { K := e.1, V := e.2 })

/-- `Classifier.TopTopics`. -/
def TopTopics (U : UnicodeTables) (text : GoString) (n : Int) : Except String (List GoString) :=
  topOfList (kvList U text) n

/-- The tokens the loop of lines 68-76 counts, with repetitions. -/
def countedWords (U : UnicodeTables) (text : GoString) : List GoString :=
  (words U text).filter (fun w => !decide (byteLen w < 3) && !stopwords.contains w)

/-- The keys of the sorted slice: the ranking `TopTopics` truncates. -/
def ranking (U : UnicodeTables) (text : GoString) : List GoString :=
  (sortSlice (kvList U text)).map kv.K

/-! ## `HTTPClient.Fetch` (`internal/crawler/crawler.go`) -/

/-- What `Fetch` reads of the result of `net/url.Parse`. -/
structure ParsedURL where
  Scheme : GoString
  Host : GoString
  /-- `u.String()` -/
  Str : GoString

/-- What `Fetch` reads of the `*http.Response`. -/
structure Response where
  StatusCode : Int
  /-- `resp.Header.Get("Content-Encoding")` -/
  ContentEncoding : GoString
  /-- `resp.Header.Get("Content-Type")` -/
  ContentType : GoString
  /-- The bytes of `resp.Body`. -/
  Body : List Nat
  /-- `resp.Request.URL.String()` -/
  FinalURL : GoString

/-- The standard library and the network, as seen by one call of `Fetch`. An
absent value stands for a non-nil `err`. -/
structure Env where
  /-- `url.Parse(rawURL)` -/
  urlParse : GoString → Option ParsedURL
  /-- `http.NewRequestWithContext(ctx, GET, u.String(), nil)`: the error text, if any. -/
  newRequest : ParsedURL → Option GoString
  /-- `h.client.Do(req)` -/
  clientDo : ParsedURL → Except GoString Response
  /-- `gzip.NewReader(resp.Body)`: the decompressed stream. -/
  gzipNewReader : List Nat → Except GoString (List Nat)
  /-- First result of `mime.ParseMediaType`. -/
  parseMediaType : GoString → GoString
  /-- `time.Since(start)`, in nanoseconds. -/
  since : Nat

/-- The fields of `HTTPClient` that `Fetch` computes with. -/
structure HTTPClient where
  sizeCap : Int

/-- The errors `Fetch` returns. -/
inductive FetchError where
  /-- `fmt.Errorf("invalid url")` -/
  | invalidURL
  /-- An error of `http.NewRequestWithContext`, `client.Do` or `gzip.NewReader`, passed on. -/
  | passed (msg : GoString)
  /-- `fmt.Errorf("http status %d", resp.StatusCode)` -/
  | badStatus (code : Int)
  /-- `errors.New("non-html content")` -/
  | nonHTML
deriving DecidableEq, Repr

/-- `err.Error()`. -/
def FetchError.Error : FetchError → GoString
  | .invalidURL => "invalid url".toList
  | .passed msg => msg
  | .badStatus code => "http status ".toList ++ (toString code).toList
  | .nonHTML => "non-html content".toList

/-- The five results of `Fetch`; `Body = none` is the nil `io.ReadCloser`. -/
structure FetchResult where
  Body : Option (List Nat)
  FinalURL : GoString
  ContentType : GoString
  Elapsed : Nat
  Err : Option FetchError
deriving DecidableEq, Repr

/-- `return nil, "", "", 0, err`. -/
def failWith (e : FetchError) : FetchResult :=
  { Body := none, FinalURL := [], ContentType := [], Elapsed := 0, Err := some e }

/-- `strings.EqualFold(s, t)` for a lower-case ASCII `t`. -/
def EqualFold : GoString → GoString → Bool
  | [], [] => true
  | c :: cs, p :: ps => foldEq p c && EqualFold cs ps
  | _, _ => false

/-- `HTTPClient.Fetch`. -/
def Fetch (h : HTTPClient) (env : Env) (rawURL : GoString) : FetchResult :=
  match env.urlParse rawURL with
  | none => failWith .invalidURL
  | some u =>
    if u.Scheme = [] || u.Host = [] then failWith .invalidURL
    else
      match env.newRequest u with
      | some err => failWith (.passed err)
      | none =>
        match env.clientDo u with
        | .error err => failWith (.passed err)
        | .ok resp =>
          if resp.StatusCode < 200 || resp.StatusCode >= 400 then
            failWith (.badStatus resp.StatusCode)
          else
            let body : Except GoString (List Nat) :=
              if EqualFold resp.ContentEncoding "gzip".toList then env.gzipNewReader resp.Body
              else .ok resp.Body
            match body with
            | .error err => failWith (.passed err)
            | .ok body =>
              let r := body.take h.sizeCap.toNat
              let contentType := resp.ContentType
              let mediaType := env.parseMediaType contentType
              if !Contains mediaType "text/html".toList &&
                  !Contains mediaType "application/xhtml+xml".toList && mediaType != [] then
                failWith .nonHTML
              else
                { Body := some r, FinalURL := resp.FinalURL, ContentType := contentType,
                  Elapsed := env.since, Err := none }

/-! ## The per-URL task of the three orchestration paths -/

/-- `models.CrawlResult`. -/
structure CrawlResult where
  SourceURL : GoString
  FetchMs : Nat
  Meta : Meta
  Content : Content
  Class : Classification
  Topics : List GoString

/-- The record `out` / `outRec` of the handlers and of the command line. -/
structure out where
  URL : GoString
  Result : Option CrawlResult := none
  Error : GoString := []

/-- What a task needs besides its URL: the client, the world its `Fetch` call
meets, `Parser.Extract` and the rune tables. -/
structure Deps where
  client : HTTPClient
  env : Env
  /-- `par.Extract(body, ct)` -/
  Extract : List Nat → GoString → Except GoString Page
  tables : UnicodeTables

/-- One run of a task: the URLs `client.Fetch` was called with, and the outcome. -/
structure TaskRun where
  fetched : List GoString
  out : out

/-- `cl.TopTopics(page.Content.Text, 15)`; the call cannot panic since `15 ≥ 0`. -/
def topics15 (U : UnicodeTables) (text : GoString) : List GoString :=
  match TopTopics U text 15 with
  | .ok t => t
  | .error _ => []

/-- The part of a task that follows a successful `Fetch`. -/
def afterFetch (d : Deps) (u : GoString) (r : FetchResult) : out :=
  match d.Extract (r.Body.getD []) r.ContentType with
  | .error err => { URL := u, Error := err }
  | .ok page =>
    { URL := u,
      Result := some
        { SourceURL := r.FinalURL, FetchMs := r.Elapsed / 1000000, Meta := page.Meta,
          Content := page.Content, Class := Classify d.tables page,
          Topics := topics15 d.tables page.Content.Text } }

/-- The task of `cmd/cli/main.go` (lines 54-77) and of the `/crawl/upload`
handler (lines 200-224): fetch, extract, classify. -/
def fetchTask (d : Deps) (u : GoString) : TaskRun :=
  let r := Fetch d.client d.env u
  match r.Err with
  | some err => { fetched := [u], out := { URL := u, Error := err.Error } }
  | none => { fetched := [u], out := afterFetch d u r }

/-- The task of the command line. -/
def cliTask (d : Deps) (u : GoString) : TaskRun := fetchTask d u

/-- The task of the `/crawl/upload` handler; its outcome is encoded to the
response stream. -/
def uploadTask (d : Deps) (u : GoString) : TaskRun := fetchTask d u

/-- The task of the `/crawl/batch` handler (lines 109-137). -/
def batchTask (d : Deps) (u : GoString) : TaskRun :=
  if u = [] then { fetched := [], out := { URL := u, Error := "empty url".toList } }
  else fetchTask d u

/-- The orchestration paths. -/
inductive Path where
  | cli
  | batch
  | upload
deriving DecidableEq, Repr

/-- The task of a path. -/
def Path.task : Path → Deps → GoString → TaskRun
  | .cli => cliTask
  | .batch => batchTask
  | .upload => uploadTask

/-- A world in which every request is answered with status 200, an empty body
and the given `Content-Type`, a bare `type/subtype` that `mime.ParseMediaType`
returns unchanged; `url.Parse` is modelled on the two raw URLs used below. -/
def worldServing (contentType : GoString) : Env where
  urlParse := fun raw =>
    if raw = "http://a.test".toList then
      some { Scheme := "http".toList, Host := "a.test".toList, Str := raw }
    else if raw = [] then some { Scheme := [], Host := [], Str := [] }
    else none
  newRequest := fun _ => none
  clientDo := fun u =>
    .ok { StatusCode := 200, ContentEncoding := [], ContentType := contentType, Body := [],
          FinalURL := u.Str }
  gzipNewReader := fun b => .ok b
  parseMediaType := fun ct => ct
  since := 1

/-- A task environment over `worldServing`, with an `Extract` that accepts
every document as the empty page. -/
def depsServing (contentType : GoString) : Deps where
  client := { sizeCap := 5 * 1024 * 1024 }
  env := worldServing contentType
  Extract := fun _ _ => .ok {}
  tables := basicTables

/-! ## Collect-mode orchestration (`cmd/cli/main.go` 46-80, `/crawl/batch` 100-143)

The goroutines are modelled by an interleaving of atomic events on a shared
state. A task goes through the phases below: it is spawned once the spawning
loop has put a token in `sem`, it runs its body and stores its outcome in its
own slot of `results`, and its deferred function takes a token back from `sem`
and then sends its index on `done`. The main goroutine receives from `done`
once per URL after the spawning loop and then reads `results`. -/

/-- Where a task stands. -/
inductive Phase where
  /-- Not yet spawned. -/
  | idle
  /-- Spawned, holding a token of `sem`; its body has not stored the outcome yet. -/
  | running
  /-- `results[i]` stored; the deferred function has not run yet. -/
  | written
  /-- The deferred function did `<-sem`. -/
  | released
  /-- The deferred function did `done <- i`. -/
  | signalled
deriving DecidableEq, Repr

/-- The shared state of a collect-mode run. -/
structure Collect where
  /-- The slice `results`. -/
  results : List out
  /-- The phase of each task. -/
  phase : List Phase
  /-- How many iterations of the spawning loop are over. -/
  spawned : Nat
  /-- `len(sem)`: the tokens in the channel. -/
  sem : Nat
  /-- The indices buffered in the channel `done`. -/
  done : List Nat
  /-- How many iterations of the waiting loop are over. -/
  received : Nat

/-- The state after `results := make([]out, len(urls))` and the two `make(chan ...)`. -/
def Collect.init (urls : List GoString) : Collect where
  results := List.replicate urls.length { URL := [] }
  phase := List.replicate urls.length .idle
  spawned := 0
  sem := 0
  done := []
  received := 0

/-- The atomic events of a run. -/
inductive Event where
  /-- `sem <- struct{}{}` and `go func() {...}()` for the next URL. -/
  | spawn
  /-- Task `i` completes its body, storing `results[i]`. -/
  | write (i : Nat)
  /-- The deferred `<-sem` of task `i`. -/
  | release (i : Nat)
  /-- The deferred `done <- i` of task `i`. -/
  | signal (i : Nat)
  /-- `<-done` in the waiting loop. -/
  | recv
deriving DecidableEq, Repr

/-- One event, when it is enabled. `cap` is the capacity of `sem`; `done` has
capacity `len(urls)`; `task i u` is the outcome task `i` computes for URL `u`. -/
def step (task : Nat → GoString → out) (urls : List GoString) (cap : Nat) (s : Collect) :
    Event → Option Collect
  | .spawn =>
    if s.spawned < urls.length ∧ s.sem < cap then
      some { s with spawned := s.spawned + 1, sem := s.sem + 1,
                    phase := s.phase.set s.spawned .running }
    else none
  | .write i =>
    if s.phase[i]? = some .running then
      some { s with results := s.results.set i (task i (urls.getD i [])),
                    phase := s.phase.set i .written }
    else none
  | .release i =>
    if s.phase[i]? = some .written ∧ 0 < s.sem then
      some { s with sem := s.sem - 1, phase := s.phase.set i .released }
    else none
  | .signal i =>
    if s.phase[i]? = some .released ∧ s.done.length < urls.length then
      some { s with done := s.done ++ [i], phase := s.phase.set i .signalled }
    else none
  | .recv =>
    if s.spawned = urls.length ∧ s.received < urls.length then
      match s.done with
      | [] => none
      | _ :: rest => some { s with done := rest, received := s.received + 1 }
    else none

/-- A schedule: the events in the order they happen. -/
def run (task : Nat → GoString → out) (urls : List GoString) (cap : Nat) :
    Collect → List Event → Option Collect
  | s, [] => some s
  | s, e :: es =>
    match step task urls cap s e with
    | none => none
    | some s' => run task urls cap s' es

/-- The slice the run hands over once the waiting loop is over. -/
def returned (urls : List GoString) (s : Collect) : Option (List out) :=
  if s.spawned = urls.length ∧ s.received = urls.length then some s.results else none

/-- A bound on the number of events still to come. -/
def remaining (s : Collect) : Nat :=
  8 * s.phase.count .idle + 6 * s.phase.count .running + 4 * s.phase.count .written +
    2 * s.phase.count .released + s.done.length

/-- The outcome task `i` of a path computes; `deps i` is what that task meets. -/
def taskOut (path : Path) (deps : Nat → Deps) (i : Nat) (u : GoString) : out :=
  (path.task (deps i) u).out

/-- What holds in every state a schedule reaches. -/
structure Inv (task : Nat → GoString → out) (urls : List GoString) (s : Collect) : Prop where
  lenR : s.results.length = urls.length
  lenP : s.phase.length = urls.length
  spawned_le : s.spawned ≤ urls.length
  idle_of : ∀ j, j < urls.length → s.spawned ≤ j → s.phase[j]? = some .idle
  of_idle : ∀ j, s.phase[j]? = some .idle → s.spawned ≤ j
  stored : ∀ j, (s.phase[j]? = some .written ∨ s.phase[j]? = some .released ∨
      s.phase[j]? = some .signalled) → s.results[j]? = some (task j (urls.getD j []))
  semc : s.sem = s.phase.count .running + s.phase.count .written
  donec : s.received + s.done.length = s.phase.count .signalled

/-! ## Reading the URL list (`internal/ioformats/csvndjson.go`) -/

/-- The URL a data row of the CSV file contributes (lines 60-67), for the cell
of the `url` column; `trim` is `strings.TrimSpace`. -/
def csvCellURL (trim : GoString → GoString) (cell : GoString) : Option GoString :=
  let u := trim cell
  if u ≠ [] then some u else none

/-- The URL a line of the NDJSON file contributes (lines 79-98); `jsonURL` gives
the string under the key `url` when the line is a JSON object that has one. -/
def ndjsonLineURL (trim : GoString → GoString) (jsonURL : GoString → Option GoString)
    (raw : GoString) : Option GoString :=
  let line := trim raw
  if line = [] then none
  else if "\x7b".toList.isPrefixOf line then
    match jsonURL line with
    | some s => if s ≠ [] then some s else some line
    | none => some line
  else some line

/-- A world in which every request is answered with the given status code, an
HTML content type and an empty body. -/
def worldStatus (code : Int) : Env where
  urlParse := fun raw =>
    if raw = "http://a.test".toList then
      some { Scheme := "http".toList, Host := "a.test".toList, Str := raw }
    else none
  newRequest := fun _ => none
  clientDo := fun u =>
    .ok { StatusCode := code, ContentEncoding := [], ContentType := "text/html".toList, Body := [],
          FinalURL := u.Str }
  gzipNewReader := fun b => .ok b
  parseMediaType := fun ct => ct
  since := 1

/-! ## `Parser.Extract` (`internal/parser/parser.go`)

The document is the tree `goquery.NewDocumentFromReader` builds; decoding the
bytes and parsing the markup are parameters (`ParserEnv`). The operations of
`goquery` the code uses (`Find`, `Each`, `First`, `Text`, `AttrOr`, `Remove`)
are modelled on that tree. -/

/-- `unicode.IsSpace`: in Latin-1 the runes `\t`, `\n`, `\v`, `\f`, `\r`, space,
U+0085 and U+00A0; beyond it the runes of the Unicode property White_Space. -/
def IsSpace (c : Char) : Bool :=
  (0x09 ≤ c.toNat && c.toNat ≤ 0x0D) || c.toNat == 0x20 || c.toNat == 0x85 || c.toNat == 0xA0 ||
    c.toNat == 0x1680 || (0x2000 ≤ c.toNat && c.toNat ≤ 0x200A) || c.toNat == 0x2028 ||
    c.toNat == 0x2029 || c.toNat == 0x202F || c.toNat == 0x205F || c.toNat == 0x3000

/-- `strings.TrimSpace(s)`. -/
def TrimSpace (s : GoString) : GoString :=
  (s.dropWhile IsSpace).rdropWhile IsSpace

/-- `strings.Fields(s)`: the fields between runs of `unicode.IsSpace` runes. -/
def Fields (s : GoString) : List GoString :=
  FieldsFunc s IsSpace

/-- `strings.Split(s, sep)` for a one-rune separator; `cur` holds the piece
being read, reversed. -/
def splitAux (sep : Char) : List Char → List Char → List GoString
  | [], cur => [cur.reverse]
  | c :: cs, cur => if c = sep then cur.reverse :: splitAux sep cs [] else splitAux sep cs (c :: cur)

/-- `strings.Split(s, sep)` for a one-rune separator. -/
def Split (s : GoString) (sep : Char) : List GoString :=
  splitAux sep s []

/-- `whitespaceRe.ReplaceAllString(s, " ")` for `whitespaceRe = \s+` (line 21):
every maximal run of runes of the class `\s` becomes one space; `inRun` tells
that the rune before was of the class. -/
def collapseRun : Bool → List Char → List Char
  | _, [] => []
  | inRun, c :: cs =>
    if isSpaceRE c then
      if inRun then collapseRun true cs else ' ' :: collapseRun true cs
    else c :: collapseRun false cs

/-- `whitespaceRe.ReplaceAllString(s, " ")`. -/
def replaceWhitespace (s : GoString) : GoString :=
  collapseRun false s

/-- The attributes of an element, in source order. -/
abbrev Attrs := List (GoString × GoString)

/-- A node of the parsed document (`html.Node`): a text node or an element with
its lower-cased tag name, attributes and children. -/
inductive Node where
  | text (data : GoString)
  | elem (tag : GoString) (attrs : Attrs) (kids : List Node)

/-- A `goquery.Selection`: nodes in document order. -/
abbrev Selection := List Node

/-- A compiled selector: which elements it matches. -/
abbrev Matcher := GoString → Attrs → Bool

/-- Selector `t`. -/
def selTag (t : String) : Matcher :=
  fun tag _ => tag == t.toList

/-- Selector group `t1,t2,...` of tag names. -/
def selTags (ts : List String) : Matcher :=
  fun tag _ => ts.any (fun t => tag == t.toList)

/-- Selector `t[k="v"]`. -/
def selAttrEq (t k v : String) : Matcher :=
  fun tag attrs => tag == t.toList && attrs.any (fun a => a.1 == k.toList && a.2 == v.toList)

/-- Selector `t[k^="v"]`. -/
def selAttrPrefix (t k v : String) : Matcher :=
  fun tag attrs => tag == t.toList && attrs.any (fun a => a.1 == k.toList && v.toList.isPrefixOf a.2)

mutual
/-- `Selection.Text()` of one node: its text nodes, concatenated. -/
def Node.Text : Node → GoString
  | .text data => data
  | .elem _ _ kids => textOf kids
/-- `Selection.Text()`. -/
def textOf : List Node → GoString
  | [] => []
  | n :: ns => n.Text ++ textOf ns
end

mutual
/-- The elements of a subtree that `m` matches, the node itself first. -/
def Node.find (m : Matcher) : Node → Selection
  | .text _ => []
  | .elem tag attrs kids =>
    if m tag attrs then .elem tag attrs kids :: Find m kids else Find m kids
/-- `doc.Find(selector)`: the matched elements in document order. -/
def Find (m : Matcher) : List Node → Selection
  | [] => []
  | n :: ns => n.find m ++ Find m ns
end

mutual
/-- A node after the removal: nothing when `m` matches it. -/
def Node.remove (m : Matcher) : Node → List Node
  | .text data => [.text data]
  | .elem tag attrs kids =>
    if m tag attrs then [] else [.elem tag attrs (Remove m kids)]
/-- The document after `doc.Find(selector).Each(... s.Remove() ...)`: every
matched element is detached with its subtree. -/
def Remove (m : Matcher) : List Node → List Node
  | [] => []
  | n :: ns => n.remove m ++ Remove m ns
end

/-- `s.Attr(name)` on one element. -/
def Node.Attr : Node → GoString → Option GoString
  | .text _, _ => none
  | .elem _ attrs _, name => attrs.lookup name

/-- `s.AttrOr(name, def)`: the attribute of the first node of the selection. -/
def AttrOr (s : Selection) (name dflt : GoString) : GoString :=
  match s with
  | [] => dflt
  | n :: _ => (n.Attr name).getD dflt

/-- `s.First()`. -/
def First (s : Selection) : Selection :=
  s.take 1

/-- Map assignment `m[k] = v`. -/
def StrMap.set : StrMap → GoString → GoString → StrMap
  | [], k, v => [(k, v)]
  | (k0, v0) :: rest, k, v => if k0 = k then (k0, v) :: rest else (k0, v0) :: StrMap.set rest k v

/-- The selector of line 45. -/
def scriptLike : Matcher := selTags ["script", "noscript", "style"]

/-- Lines 56-64: the keywords. -/
def keywordsOf (U : UnicodeTables) (doc : List Node) : List GoString :=
  let kw := AttrOr (Find (selAttrEq "meta" "name" "keywords") doc) "content".toList []
  if kw ≠ [] then
    ((Split kw ',').map (fun k => ToLower U (TrimSpace k))).filter (fun trim => decide (trim ≠ []))
  else []

/-- Lines 67-74: the Open Graph map. -/
def ogOf (doc : List Node) : StrMap :=
  (Find (selAttrPrefix "meta" "property" "og:") doc).foldl
    (fun og s =>
      let prop := (s.Attr "property".toList).getD []
      let content := (s.Attr "content".toList).getD []
      if prop ≠ [] ∧ content ≠ [] then og.set prop content else og)
    []

/-- The loops of lines 81-86, 90-95 and 114-119: the trimmed, non-empty texts of
the elements `m` matches. -/
def textsOf (m : Matcher) (doc : List Node) : List GoString :=
  ((Find m doc).map (fun s => TrimSpace s.Text)).filter (fun t => decide (t ≠ []))

/-- Lines 89-95: `parts`. -/
def textParts (doc : List Node) : List GoString :=
  textsOf (selTags ["p", "li"]) doc

/-- Line 96: `text`. -/
def mainText (doc : List Node) : GoString :=
  TrimSpace (replaceWhitespace (Join (textParts doc) " ".toList))

/-- Lines 97-100: `wordCount`. -/
def countWords (text : GoString) : Int :=
  if text ≠ [] then ((Fields text).length : Int) else 0

/-- Lines 44-131 of `Extract`, on the parsed document. -/
def extractDoc (U : UnicodeTables) (parsed : List Node) : Page :=
  let doc := Remove scriptLike parsed
  let title := TrimSpace (textOf (First (Find (selTag "title") doc)))
  let desc := TrimSpace (AttrOr (Find (selAttrEq "meta" "name" "description") doc) "content".toList [])
  let desc :=
    if desc = [] then
      TrimSpace (AttrOr (Find (selAttrEq "meta" "property" "og:description") doc) "content".toList [])
    else desc
  let keywords := keywordsOf U doc
  let og := ogOf doc
  let canonical := TrimSpace (AttrOr (Find (selAttrEq "link" "rel" "canonical") doc) "href".toList [])
  let h1 := TrimSpace (textOf (First (Find (selTag "h1") doc)))
  let h2s := textsOf (selTag "h2") doc
  let text := mainText doc
  let wordCount := countWords text
  let lang := TrimSpace (AttrOr (Find (selTag "html") doc) "lang".toList [])
  let lang := if lang = [] then og.get "og:locale".toList else lang
  { Meta := { Title := title, Description := desc, Keywords := keywords, OG := og,
              Canonical := canonical, H1 := h1, H2 := h2s },
    Content := { Text := text, WordCount := wordCount, Language := lang,
                 Headings := textsOf (selTags ["h1", "h2", "h3"]) doc } }

/-- The libraries `Extract` calls before it walks the document. An absent value
stands for a non-nil `err`. -/
structure ParserEnv where
  /-- `charset.DetermineEncoding(data, contentType)` and `enc.NewDecoder().Bytes(data)`. -/
  decode : List Nat → GoString → Except GoString (List Nat)
  /-- `utf8.Valid(data)` -/
  utf8Valid : List Nat → Bool
  /-- `goquery.NewDocumentFromReader`: the children of the document node. -/
  parseHTML : List Nat → Except GoString (List Node)

/-- `Parser.Extract`. -/
def Extract (U : UnicodeTables) (env : ParserEnv) (r : List Nat) (contentType : GoString) :
    Except GoString Page :=
  let data := r
  let utf8data : Except GoString (List Nat) :=
    match env.decode data contentType with
    | .ok d => .ok d
    | .error err => if !env.utf8Valid data then .error err else .ok data
  match utf8data with
  | .error err => .error err
  | .ok utf8data =>
    match env.parseHTML utf8data with
    | .error err => .error err
    | .ok doc => .ok (extractDoc U doc)

mutual
/-- The node with the children of every element matched by `m` replaced by `g`
of them. -/
def Node.replaceInside (m : Matcher) (g : List Node → List Node) : Node → Node
  | .text data => .text data
  | .elem tag attrs kids =>
    if m tag attrs then .elem tag attrs (g kids) else .elem tag attrs (replaceInside m g kids)
/-- The document with the content of every element matched by `m` replaced. -/
def replaceInside (m : Matcher) (g : List Node → List Node) : List Node → List Node
  | [] => []
  | n :: ns => n.replaceInside m g :: replaceInside m g ns
end

/-- A parser environment whose bytes are already UTF-8 and whose markup parses
to the given document. -/
def parserServing (doc : List Node) : ParserEnv where
  decode := fun data _ => .ok data
  utf8Valid := fun _ => true
  parseHTML := fun _ => .ok doc

/-- The document `<p>Hello <script>track()</script>world</p><style>p{}</style><li> a&nbsp;b </li>`,
without the document root. -/
def sampleDoc : List Node :=
  [.elem "p".toList []
      [.text "Hello ".toList, .elem "script".toList [] [.text "track()".toList],
       .text "world".toList],
   .elem "style".toList [] [.text "p\x7b\x7d".toList],
   .elem "li".toList [] [.text " a\u00a0b ".toList]]

/-- The document `<p>a&nbsp;b</p>`, without the document root. -/
def nbspDoc : List Node :=
  [.elem "p".toList [] [.text "a\u00a0b".toList]]

/-! ## Where the URL lists come from -/

/-- What `ReadURLs` gets from the file system and the decoders for one path. An
absent value stands for a non-nil `err`. -/
structure URLFile where
  /-- `strings.ToLower(filepath.Ext(path))` -/
  ext : GoString
  /-- `os.Open` and `csv.Reader.ReadAll` with `FieldsPerRecord = -1`: the records. -/
  csvRows : Except GoString (List (List GoString))
  /-- `os.Open` and the lines the `bufio.Scanner` yields; the error is that of
  `os.Open` or of `sc.Err()`. -/
  lines : Except GoString (List GoString)
  /-- `json.Unmarshal` of a line into a map, then the string under the key `url`. -/
  jsonURL : GoString → Option GoString

/-- The loop of lines 50-56 of `readCSV`: the index of the first header cell
that is `url` up to case and surrounding white space. -/
def urlColumn : List GoString → Option Nat
  | [] => none
  | h :: hs =>
    if EqualFold (TrimSpace h) "url".toList then some 0 else (urlColumn hs).map (fun i => i + 1)

/-- The body of the loop of lines 61-68 of `readCSV` for one data row. -/
def csvRowURL (col : Nat) (row : List GoString) : Option GoString :=
  match row[col]? with
  | some cell => csvCellURL TrimSpace cell
  | none => none

/-- `readCSV`. -/
def readCSV (f : URLFile) : Except GoString (List GoString) :=
  match f.csvRows with
  | .error err => .error err
  | .ok [] => .error "empty csv".toList
  | .ok (header :: rows) =>
    match urlColumn header with
    | none => .error "csv must contain a \x27url\x27 header column".toList
    | some col => .ok (rows.filterMap (csvRowURL col))

/-- `readNDJSON`. -/
def readNDJSON (f : URLFile) : Except GoString (List GoString) :=
  match f.lines with
  | .error err => .error err
  | .ok lines =>
    let out := lines.filterMap (ndjsonLineURL TrimSpace f.jsonURL)
    if out.length = 0 then .error "no urls found in ndjson".toList else .ok out

/-- `ReadURLs`. -/
def ReadURLs (f : URLFile) : Except GoString (List GoString) :=
  if f.ext = ".csv".toList then readCSV f
  else if f.ext = ".ndjson".toList ∨ f.ext = ".jsonl".toList then readNDJSON f
  else
    match readCSV f with
    | .ok urls => if urls.length > 0 then .ok urls else readNDJSON f
    | .error _ => readNDJSON f

/-- What an orchestration path builds its URL list from: the `--input` file of
the command line, the decoded `urls` of the `/crawl/batch` body, the uploaded
file of `/crawl/upload`. -/
inductive PathInput where
  | cli (file : URLFile)
  | batch (urls : List GoString)
  | upload (file : URLFile)

/-- The path an input belongs to. -/
def PathInput.path : PathInput → Path
  | .cli _ => .cli
  | .batch _ => .batch
  | .upload _ => .upload

/-- The URL list the path spawns its tasks over, or the error it stops with
before any task (`cli/main.go` 30-34, `server/main.go` 89-92 and 178-182). -/
def PathInput.urls : PathInput → Except GoString (List GoString)
  | .cli file => ReadURLs file
  | .batch urls => if urls.length = 0 then .error "invalid payload".toList else .ok urls
  | .upload file => ReadURLs file

/-- A world in which every response declares a gzip body whose header is bad. -/
def worldBadGzip (contentType : GoString) : Env where
  urlParse := fun raw =>
    if raw = "http://a.test".toList then
      some { Scheme := "http".toList, Host := "a.test".toList, Str := raw }
    else none
  newRequest := fun _ => none
  clientDo := fun u =>
    .ok { StatusCode := 200, ContentEncoding := "gzip".toList, ContentType := contentType,
          Body := [0], FinalURL := u.Str }
  gzipNewReader := fun _ => .error "gzip: invalid header".toList
  parseMediaType := fun ct => ct
  since := 1

/-- A CSV file: header `URL`, then a padded URL, an empty cell and a short row. -/
def sampleCSV : URLFile where
  ext := ".csv".toList
  csvRows := .ok [["id".toList, " URL ".toList],
                  ["1".toList, " http://a.test ".toList],
                  ["2".toList, "  ".toList],
                  ["3".toList]]
  lines := .ok []
  jsonURL := fun _ => none

/-! ## Theorems on `Classify` -/

/-- The product branch is taken exactly when one of the three signals fired. -/
theorem productReason_length_pos (U : UnicodeTables) (p : Page) :
    (0 < (productReason U p).length) ↔
      (priceRe.found (classifyText U p) || cartRe.found (classifyText U p) || ogProduct U p) = true := by
  rcases Bool.eq_false_or_eq_true (priceRe.found (classifyText U p)) with h1 | h1 <;>
    rcases Bool.eq_false_or_eq_true (cartRe.found (classifyText U p)) with h2 | h2 <;>
    rcases Bool.eq_false_or_eq_true (ogProduct U p) with h3 | h3 <;>
    simp [productReason, h1, h2, h3]

/-- C1: the label of `Classify` is one of product, news, blog, other, chosen in
the fixed priority product > news > blog > other from the signals; a page whose
text has both a price pattern and the word "blog" is labelled product. -/
theorem Classify_label_priority (U : UnicodeTables) (p : Page) :
    (Classify U p).Label =
        (if (priceRe.found (classifyText U p) || cartRe.found (classifyText U p) || ogProduct U p) = true
          then "product"
        else if (ogArticle U p || articleRe.found (classifyText U p)) = true then "news"
        else if (Contains (classifyText U p) "blog".toList ||
            Contains (ToLower U p.Meta.Title) "blog".toList) = true then "blog"
        else "other")
      ∧ ((Classify U p).Label = "product" ∨ (Classify U p).Label = "news" ∨
          (Classify U p).Label = "blog" ∨ (Classify U p).Label = "other")
      ∧ (priceRe.found (classifyText U p) = true → Contains (classifyText U p) "blog".toList = true →
          (Classify U p).Label = "product") := by
  have hpos := productReason_length_pos U p
  have hlabel : (Classify U p).Label =
        (if (priceRe.found (classifyText U p) || cartRe.found (classifyText U p) || ogProduct U p) = true
          then "product"
        else if (ogArticle U p || articleRe.found (classifyText U p)) = true then "news"
        else if (Contains (classifyText U p) "blog".toList ||
            Contains (ToLower U p.Meta.Title) "blog".toList) = true then "blog"
        else "other") := by
    unfold Classify
    by_cases h1 : (priceRe.found (classifyText U p) || cartRe.found (classifyText U p) || ogProduct U p) = true
    · have h1' := hpos.mpr h1
      rw [if_pos (show (productReason U p).length > 0 from h1'), if_pos h1]
    · have h1' : ¬ 0 < (productReason U p).length := fun h => h1 (hpos.mp h)
      rw [if_neg (show ¬ (productReason U p).length > 0 from h1'), if_neg h1]
      by_cases h2 : (ogArticle U p || articleRe.found (classifyText U p)) = true
      · rw [if_pos h2, if_pos h2]
      · rw [if_neg h2, if_neg h2]
        by_cases h3 : (Contains (classifyText U p) "blog".toList ||
            Contains (ToLower U p.Meta.Title) "blog".toList) = true
        · rw [if_pos h3, if_pos h3]
        · rw [if_neg h3, if_neg h3]
  refine ⟨hlabel, ?_, ?_⟩
  · rw [hlabel]
    split_ifs <;> simp
  · intro hp _
    rw [hlabel, if_pos (by simp [hp])]

/-- C1, at a page whose text has a price pattern and the word "blog". -/
theorem Classify_label_priority_witness :
    priceRe.found (classifyText basicTables { Content := { Text := "Our blog: $5 deals".toList } }) = true ∧
    Contains (classifyText basicTables { Content := { Text := "Our blog: $5 deals".toList } }) "blog".toList = true ∧
    (Classify basicTables { Content := { Text := "Our blog: $5 deals".toList } }).Label = "product" :=
  ⟨by decide, by decide,
    (Classify_label_priority basicTables { Content := { Text := "Our blog: $5 deals".toList } }).2.2
      (by decide) (by decide)⟩

/-- C2: the entries of `Reason` are exactly the signals that fired for the
chosen label, each with its fixed explanatory string: for product the non-empty
set of fired product signals among price, cart, og:type; for news the single
key article; for blog the single key blog; `Reason` is empty exactly when the
label is other. The two example texts of the specification give product with
keys price and cart, and news with key article. -/
theorem Classify_reason_keys :
    (∀ (U : UnicodeTables) (p : Page),
      ((Classify U p).Label = "product" →
        (Classify U p).Reason ≠ [] ∧
        ∀ k v, (k, v) ∈ (Classify U p).Reason ↔
          (k = "price" ∧ v = "currency-like price detected" ∧ priceRe.found (classifyText U p) = true) ∨
          (k = "cart" ∧ v = "ecommerce CTA found" ∧ cartRe.found (classifyText U p) = true) ∨
          (k = "og:type" ∧ v = "og:type indicates product" ∧ ogProduct U p = true))
      ∧ ((Classify U p).Label = "news" → (Classify U p).Reason = [("article", "article-like markers")])
      ∧ ((Classify U p).Label = "blog" → (Classify U p).Reason = [("blog", "blog marker in title/content")])
      ∧ ((Classify U p).Reason = [] ↔ (Classify U p).Label = "other")
      ∧ ((Classify U p).Reason.map Prod.fst).Nodup)
    ∧ Classify basicTables { Content := { Text := "Buy now for $10. Add to cart.".toList } } =
        { Label := "product",
          Reason := [("price", "currency-like price detected"), ("cart", "ecommerce CTA found")] }
    ∧ Classify basicTables { Content := { Text := "Published today by author John. 5 minutes read.".toList } } =
        { Label := "news", Reason := [("article", "article-like markers")] } := by
  refine ⟨?_, by decide, by decide⟩
  intro U p
  have hpos := productReason_length_pos U p
  have hmem : ∀ k v, (k, v) ∈ productReason U p ↔
          (k = "price" ∧ v = "currency-like price detected" ∧ priceRe.found (classifyText U p) = true) ∨
          (k = "cart" ∧ v = "ecommerce CTA found" ∧ cartRe.found (classifyText U p) = true) ∨
          (k = "og:type" ∧ v = "og:type indicates product" ∧ ogProduct U p = true) := by
    intro k v
    rcases Bool.eq_false_or_eq_true (priceRe.found (classifyText U p)) with h1 | h1 <;>
      rcases Bool.eq_false_or_eq_true (cartRe.found (classifyText U p)) with h2 | h2 <;>
      rcases Bool.eq_false_or_eq_true (ogProduct U p) with h3 | h3 <;>
      simp [productReason, h1, h2, h3]
  have hnodup : ((productReason U p).map Prod.fst).Nodup := by
    rcases Bool.eq_false_or_eq_true (priceRe.found (classifyText U p)) with h1 | h1 <;>
      rcases Bool.eq_false_or_eq_true (cartRe.found (classifyText U p)) with h2 | h2 <;>
      rcases Bool.eq_false_or_eq_true (ogProduct U p) with h3 | h3 <;>
      simp [productReason, h1, h2, h3]
  by_cases h1 : 0 < (productReason U p).length
  · have hC : Classify U p = { Label := "product", Reason := productReason U p } := by
      unfold Classify
      rw [if_pos (show (productReason U p).length > 0 from h1)]
    have hne : productReason U p ≠ [] := by
      intro h
      rw [h] at h1
      exact absurd h1 (by simp)
    rw [hC]
    refine ⟨fun _ => ⟨hne, hmem⟩, by simp, by simp, ?_, hnodup⟩
    simp [hne]
  · have hnil : productReason U p = [] := by
      cases h : productReason U p with
      | nil => rfl
      | cons a l => rw [h] at h1; exact absurd (by simp) h1
    by_cases h2 : (ogArticle U p || articleRe.found (classifyText U p)) = true
    · have hC : Classify U p = { Label := "news", Reason := [("article", "article-like markers")] } := by
        unfold Classify
        rw [if_neg (show ¬ (productReason U p).length > 0 from h1), if_pos h2, hnil]
        rfl
      rw [hC]
      simp
    · by_cases h3 : (Contains (classifyText U p) "blog".toList ||
          Contains (ToLower U p.Meta.Title) "blog".toList) = true
      · have hC : Classify U p = { Label := "blog", Reason := [("blog", "blog marker in title/content")] } := by
          unfold Classify
          rw [if_neg (show ¬ (productReason U p).length > 0 from h1), if_neg h2, if_pos h3, hnil]
          rfl
        rw [hC]
        simp
      · have hC : Classify U p = { Label := "other", Reason := [] } := by
          unfold Classify
          rw [if_neg (show ¬ (productReason U p).length > 0 from h1), if_neg h2, if_neg h3, hnil]
        rw [hC]
        simp

/-- C2, at the product example of the specification. -/
theorem Classify_reason_keys_witness :
    (Classify basicTables { Content := { Text := "Buy now for $10. Add to cart.".toList } }).Label = "product" ∧
    (Classify basicTables { Content := { Text := "Buy now for $10. Add to cart.".toList } }).Reason ≠ [] :=
  ⟨by decide,
    ((Classify_reason_keys.1 basicTables
      { Content := { Text := "Buy now for $10. Add to cart.".toList } }).1 (by decide)).1⟩

/-! ## Lemmas on the string order -/

theorem toNat_inj {a b : Char} (h : a.toNat = b.toNat) : a = b := by
  have := congrArg Char.ofNat h
  simpa [Char.ofNat_toNat] using this

theorem strLt_irrefl (a : GoString) : strLt a a = false := by
  induction a with
  | nil => rfl
  | cons x xs ih => simp [strLt, ih]

theorem strLt_trichotomy (a b : GoString) : strLt a b = true ∨ a = b ∨ strLt b a = true := by
  induction a generalizing b with
  | nil => cases b <;> simp [strLt]
  | cons x xs ih =>
    cases b with
    | nil => simp [strLt]
    | cons y ys =>
      rcases Nat.lt_trichotomy x.toNat y.toNat with h | h | h
      · left; simp [strLt, h]
      · have hxy := toNat_inj h
        subst hxy
        rcases ih ys with h1 | h1 | h1
        · left; simp [strLt, h1]
        · right; left; rw [h1]
        · right; right; simp [strLt, h1]
      · right; right; simp [strLt, h]

theorem strLt_asymm {a b : GoString} (h : strLt a b = true) : strLt b a = false := by
  induction a generalizing b with
  | nil => cases b <;> simp [strLt] at h ⊢
  | cons x xs ih =>
    cases b with
    | nil => simp [strLt] at h
    | cons y ys =>
      simp only [strLt, Bool.or_eq_true, decide_eq_true_eq, Bool.and_eq_true, beq_iff_eq] at h
      rcases h with h | ⟨h1, h2⟩
      · have h3 : ¬ y.toNat < x.toNat := by omega
        have h4 : ¬ y = x := by
          intro e
          rw [e] at h
          omega
        simp [strLt, h3, h4]
      · subst h1
        simp [strLt, ih h2]

theorem strLt_trans {a b c : GoString} (h1 : strLt a b = true) (h2 : strLt b c = true) :
    strLt a c = true := by
  induction a generalizing b c with
  | nil =>
    cases c with
    | nil => cases b <;> simp [strLt] at h1 h2
    | cons z zs => simp [strLt]
  | cons x xs ih =>
    cases b with
    | nil => simp [strLt] at h1
    | cons y ys =>
      cases c with
      | nil => simp [strLt] at h2
      | cons z zs =>
        simp only [strLt, Bool.or_eq_true, decide_eq_true_eq, Bool.and_eq_true, beq_iff_eq] at h1 h2 ⊢
        rcases h1 with h1 | ⟨e1, h1⟩ <;> rcases h2 with h2 | ⟨e2, h2⟩
        · left; omega
        · subst e2; left; exact h1
        · subst e1; left; exact h2
        · subst e1; subst e2; right; exact ⟨rfl, ih h1 h2⟩

/-! ## Lemmas on the comparator -/

theorem less_iff (a b : kv) :
    less a b = true ↔ a.V > b.V ∨ (a.V = b.V ∧ strLt a.K b.K = true) := by
  unfold less
  by_cases h : a.V = b.V
  · simp [h]
  · simp only [h, if_false, decide_eq_true_eq, false_and, or_false]

theorem notAfter_iff (a b : kv) :
    notAfter a b ↔ a.V > b.V ∨ (a.V = b.V ∧ strLt b.K a.K = false) := by
  unfold notAfter
  rw [← Bool.not_eq_true, less_iff]
  constructor
  · intro h
    rcases Nat.lt_trichotomy a.V b.V with h1 | h1 | h1
    · exact absurd (Or.inl h1) h
    · right
      refine ⟨h1, ?_⟩
      rw [← Bool.not_eq_true]
      intro h2
      exact h (Or.inr ⟨h1.symm, h2⟩)
    · exact Or.inl h1
  · rintro (h | ⟨h1, h2⟩) (h3 | ⟨h3, h4⟩)
    · omega
    · omega
    · omega
    · rw [h2] at h4
      exact absurd h4 (by simp)

theorem strLt_false_trans {a b c : GoString} (h1 : strLt b a = false) (h2 : strLt c b = false) :
    strLt c a = false := by
  rw [← Bool.not_eq_true] at h1 h2 ⊢
  intro h
  rcases strLt_trichotomy a b with h3 | h3 | h3
  · exact h2 (strLt_trans h h3)
  · subst h3
    exact h2 h
  · exact h1 h3

instance : IsTotal kv notAfter where
  total a b := by
    rw [notAfter_iff, notAfter_iff]
    rcases Nat.lt_trichotomy a.V b.V with h | h | h
    · right; left; exact h
    · rcases strLt_trichotomy a.K b.K with h1 | h1 | h1
      · left; right; exact ⟨h, strLt_asymm h1⟩
      · left; right; refine ⟨h, ?_⟩
        rw [h1]
        exact strLt_irrefl _
      · right; right; exact ⟨h.symm, strLt_asymm h1⟩
    · left; left; exact h

instance : IsTrans kv notAfter where
  trans a b c := by
    rw [notAfter_iff, notAfter_iff, notAfter_iff]
    rintro (h1 | ⟨h1, h2⟩) (h3 | ⟨h3, h4⟩)
    · left; omega
    · left; omega
    · left; omega
    · right; exact ⟨by omega, strLt_false_trans h2 h4⟩

instance : IsAntisymm kv notAfter where
  antisymm a b := by
    rw [notAfter_iff, notAfter_iff]
    rintro (h1 | ⟨h1, h2⟩) (h3 | ⟨h3, h4⟩)
    · omega
    · omega
    · omega
    · rcases strLt_trichotomy a.K b.K with h | h | h
      · rw [h] at h4
        exact absurd h4 (by simp)
      · cases a
        cases b
        simp_all
      · rw [h] at h2
        exact absurd h2 (by simp)

theorem sortSlice_perm (l : List kv) : (sortSlice l).Perm l :=
  List.perm_insertionSort notAfter l

theorem sortSlice_sorted (l : List kv) : (sortSlice l).Sorted notAfter :=
  List.sorted_insertionSort notAfter l

/-- Any arrangement of the same entries that is sorted for the comparator is
the one `sortSlice` returns. -/
theorem sorted_unique {l s : List kv} (hp : s.Perm l) (hs : s.Pairwise notAfter) :
    s = sortSlice l :=
  List.eq_of_perm_of_sorted (hp.trans (sortSlice_perm l).symm) hs (sortSlice_sorted l)

/-! ## Lemmas on the frequency map -/

theorem lookup_incr (f : FreqMap) (w k : GoString) :
    (incr f w).lookup k = if k = w then some ((f.lookup w).getD 0 + 1) else f.lookup k := by
  induction f with
  | nil =>
    by_cases h : k = w
    · simp [incr, List.lookup, h]
    · have h1 : (k == w) = false := by simpa using h
      simp [incr, List.lookup, h, h1]
  | cons e rest ih =>
    obtain ⟨k0, v0⟩ := e
    by_cases h0 : k0 = w
    · subst h0
      by_cases h : k = k0
      · subst h
        simp [incr, List.lookup]
      · have h1 : (k == k0) = false := by simpa using h
        simp [incr, List.lookup_cons, h, h1]
    · by_cases h : k = w
      · subst h
        have h1 : (k == k0) = false := by simpa using fun e => h0 e.symm
        simp [incr, h0, List.lookup_cons, h1, ih]
      · by_cases h1 : k = k0
        · subst h1
          simp [incr, h0, List.lookup_cons]
        · have h2 : (k == k0) = false := by simpa using h1
          simp [incr, h0, List.lookup_cons, h2, ih, h]

theorem mem_keys_incr (f : FreqMap) (w a : GoString) :
    a ∈ (incr f w).map Prod.fst ↔ a ∈ f.map Prod.fst ∨ a = w := by
  induction f with
  | nil => simp [incr]
  | cons e rest ih =>
    obtain ⟨k0, v0⟩ := e
    by_cases h0 : k0 = w
    · subst h0
      simp only [incr, if_true, List.map_cons, List.mem_cons]
      tauto
    · simp only [incr, h0, if_false, List.map_cons, List.mem_cons, ih]
      tauto

theorem nodup_keys_incr (f : FreqMap) (w : GoString) (h : (f.map Prod.fst).Nodup) :
    ((incr f w).map Prod.fst).Nodup := by
  induction f with
  | nil => simp [incr]
  | cons e rest ih =>
    obtain ⟨k0, v0⟩ := e
    rw [List.map_cons, List.nodup_cons] at h
    by_cases h0 : k0 = w
    · subst h0
      simp only [incr, if_true, List.map_cons, List.nodup_cons]
      exact h
    · simp only [incr, h0, if_false, List.map_cons, List.nodup_cons]
      refine ⟨?_, ih h.2⟩
      rw [mem_keys_incr]
      rintro (h1 | h1)
      · exact h.1 h1
      · exact h0 h1

theorem nodup_keys_foldl_incr (ws : List GoString) (f : FreqMap) (h : (f.map Prod.fst).Nodup) :
    ((ws.foldl incr f).map Prod.fst).Nodup := by
  induction ws generalizing f with
  | nil => exact h
  | cons w ws ih => exact ih _ (nodup_keys_incr f w h)

theorem lookup_foldl_incr (ws : List GoString) (f : FreqMap) (k : GoString) :
    (ws.foldl incr f).lookup k =
      if ws.count k = 0 then f.lookup k else some ((f.lookup k).getD 0 + ws.count k) := by
  induction ws generalizing f with
  | nil => simp
  | cons w ws ih =>
    rw [List.foldl_cons, ih, lookup_incr, List.count_cons]
    by_cases h : k = w
    · subst h
      by_cases hc : List.count k ws = 0
      · simp [hc]
      · simp [hc]
        omega
    · have h1 : (w == k) = false := by simpa using fun e => h e.symm
      simp [h, h1]

theorem mem_iff_lookup (f : FreqMap) (h : (f.map Prod.fst).Nodup) (k : GoString) (v : Nat) :
    (k, v) ∈ f ↔ f.lookup k = some v := by
  induction f with
  | nil => simp
  | cons e rest ih =>
    obtain ⟨k0, v0⟩ := e
    rw [List.map_cons, List.nodup_cons] at h
    by_cases h0 : k = k0
    · subst h0
      have hnot : (k, v) ∉ rest := fun hm => h.1 (List.mem_map.mpr ⟨(k, v), hm, rfl⟩)
      simp only [List.mem_cons, Prod.mk.injEq, true_and, hnot, or_false, List.lookup_cons, beq_self_eq_true,
        Option.some.injEq]
      exact eq_comm
    · have h1 : (k == k0) = false := by simpa using h0
      simp only [List.mem_cons, Prod.mk.injEq, h0, false_and, false_or, List.lookup_cons, h1]
      exact ih h.2

theorem foldl_countStep (ws : List GoString) (f : FreqMap) :
    ws.foldl countStep f =
      (ws.filter (fun w => !decide (byteLen w < 3) && !stopwords.contains w)).foldl incr f := by
  induction ws generalizing f with
  | nil => rfl
  | cons w ws ih =>
    rw [List.foldl_cons, ih]
    by_cases h1 : byteLen w < 3
    · simp [countStep, h1, List.filter_cons]
    · by_cases h2 : w ∈ stopwords
      · simp [countStep, h1, h2, List.filter_cons]
      · simp [countStep, h1, h2, List.filter_cons]

theorem freqMap_eq (U : UnicodeTables) (text : GoString) :
    freqMap U text = (countedWords U text).foldl incr [] :=
  foldl_countStep (words U text) []

theorem nodup_keys_freqMap (U : UnicodeTables) (text : GoString) :
    ((freqMap U text).map Prod.fst).Nodup := by
  rw [freqMap_eq]
  exact nodup_keys_foldl_incr _ [] (by simp)

/-- The map holds exactly the counted tokens, each with its number of occurrences. -/
theorem mem_freqMap (U : UnicodeTables) (text : GoString) (k : GoString) (v : Nat) :
    (k, v) ∈ freqMap U text ↔ k ∈ countedWords U text ∧ v = (countedWords U text).count k := by
  rw [mem_iff_lookup _ (nodup_keys_freqMap U text), freqMap_eq, lookup_foldl_incr]
  by_cases hc : List.count k (countedWords U text) = 0
  · have hk : k ∉ countedWords U text := List.count_eq_zero.mp hc
    simp [hc, hk]
  · have hk : k ∈ countedWords U text := by
      by_contra hk
      exact hc (List.count_eq_zero.mpr hk)
    simp [hc, hk, eq_comm]

theorem mem_kvList (U : UnicodeTables) (text : GoString) (e : kv) :
    e ∈ kvList U text ↔ e.K ∈ countedWords U text ∧ e.V = (countedWords U text).count e.K := by
  unfold kvList
  rw [List.mem_map]
  constructor
  · rintro ⟨⟨k, v⟩, hm, rfl⟩
    exact (mem_freqMap U text k v).mp hm
  · intro h
    exact ⟨(e.K, e.V), (mem_freqMap U text e.K e.V).mpr h, rfl⟩

theorem kvList_keys (U : UnicodeTables) (text : GoString) :
    (kvList U text).map kv.K = (freqMap U text).map Prod.fst := by
  unfold kvList
  rw [List.map_map]
  rfl

/-! ## Theorems on `TopTopics` -/

theorem firstN_of_nonneg (list : List kv) (n : Int) (hn : 0 ≤ n) :
    firstN list n = Except.ok ((list.map kv.K).take n.toNat) := by
  unfold firstN
  by_cases h : n > (list.length : Int)
  · have h1 : ¬ ((list.length : Int) < 0) := by omega
    have h2 : list.length ≤ n.toNat := by omega
    simp only [h, if_true, h1, if_false, Int.toNat_ofNat, List.take_length]
    rw [List.take_of_length_le (by simpa using h2)]
  · have h1 : ¬ (n < 0) := by omega
    simp only [h, if_false, h1, List.map_take]

theorem ranking_nodup (U : UnicodeTables) (text : GoString) : (ranking U text).Nodup := by
  have hp : (ranking U text).Perm ((kvList U text).map kv.K) := (sortSlice_perm _).map _
  rw [hp.nodup_iff, kvList_keys]
  exact nodup_keys_freqMap U text

theorem mem_ranking (U : UnicodeTables) (text : GoString) (w : GoString) :
    w ∈ ranking U text ↔ w ∈ countedWords U text := by
  have hp : (ranking U text).Perm ((kvList U text).map kv.K) := (sortSlice_perm _).map _
  rw [hp.mem_iff, List.mem_map]
  constructor
  · rintro ⟨e, he, rfl⟩
    exact ((mem_kvList U text e).mp he).1
  · intro hw
    exact ⟨⟨w, (countedWords U text).count w⟩, (mem_kvList U text _).mpr ⟨hw, rfl⟩, rfl⟩

theorem ranking_sorted (U : UnicodeTables) (text : GoString) :
    (ranking U text).Pairwise (fun a b =>
      (countedWords U text).count a > (countedWords U text).count b ∨
      ((countedWords U text).count a = (countedWords U text).count b ∧ strLt a b = true)) := by
  have hs : (sortSlice (kvList U text)).Pairwise notAfter := sortSlice_sorted _
  have hnd : ((sortSlice (kvList U text)).map kv.K).Nodup := ranking_nodup U text
  rw [List.Nodup, List.pairwise_map] at hnd
  unfold ranking
  rw [List.pairwise_map]
  refine (hs.and hnd).imp_of_mem ?_
  intro a b ha hb hab
  have ha1 := (mem_kvList U text a).mp ((sortSlice_perm _).mem_iff.mp ha)
  have hb1 := (mem_kvList U text b).mp ((sortSlice_perm _).mem_iff.mp hb)
  rw [← ha1.2, ← hb1.2]
  rcases (notAfter_iff a b).mp hab.1 with h | ⟨h1, h2⟩
  · exact Or.inl h
  · right
    refine ⟨h1, ?_⟩
    rcases strLt_trichotomy a.K b.K with h3 | h3 | h3
    · exact h3
    · exact absurd h3 hab.2
    · rw [h3] at h2
      exact absurd h2 (by simp)

theorem ranking_perm (U : UnicodeTables) (text : GoString) :
    (ranking U text).Perm (countedWords U text).dedup := by
  rw [List.perm_ext_iff_of_nodup (ranking_nodup U text) (List.nodup_dedup _)]
  intro w
  rw [mem_ranking, List.mem_dedup]

theorem TopTopics_of_nonneg (U : UnicodeTables) (text : GoString) (n : Int) (hn : 0 ≤ n) :
    TopTopics U text n = Except.ok ((ranking U text).take n.toNat) :=
  firstN_of_nonneg _ n hn

/-- C3: for `n ≥ 0`, `TopTopics(text, n)` returns the first `min(n, V)` entries
of the ranking of the `V` distinct counted tokens, which lists each of them
once, by descending frequency and, at equal frequency, by ascending token
order; the output has no repetition and at most `n` entries. -/
theorem TopTopics_ranked (U : UnicodeTables) (text : GoString) (n : Int) (hn : 0 ≤ n) :
    TopTopics U text n = Except.ok ((ranking U text).take n.toNat) ∧
    (ranking U text).Perm (countedWords U text).dedup ∧
    (ranking U text).Pairwise (fun a b =>
      (countedWords U text).count a > (countedWords U text).count b ∨
      ((countedWords U text).count a = (countedWords U text).count b ∧ strLt a b = true)) ∧
    ((ranking U text).take n.toNat).Nodup ∧
    ((ranking U text).take n.toNat).length = min n.toNat (countedWords U text).dedup.length ∧
    (((ranking U text).take n.toNat).length : Int) ≤ n := by
  have hperm := ranking_perm U text
  refine ⟨TopTopics_of_nonneg U text n hn, hperm, ranking_sorted U text, ?_, ?_, ?_⟩
  · exact (ranking_nodup U text).sublist (List.take_sublist _ _)
  · rw [List.length_take, hperm.length_eq]
  · rw [List.length_take]
    omega

/-- C3, on the text "parsing network network" with `n = 1`. -/
theorem TopTopics_ranked_witness :
    TopTopics basicTables "parsing network network".toList 1 = Except.ok ["network".toList] :=
  (TopTopics_ranked basicTables "parsing network network".toList 1 (by decide)).1

/-- C4 as stated fails: on "go go network network network parsing parsing"
with `n = 3` the code does not return `["network", "go", "parsing"]`. -/
theorem TopTopics_example_counterexample :
    TopTopics basicTables "go go network network network parsing parsing".toList 3 ≠
      Except.ok ["network".toList, "go".toList, "parsing".toList] := by
  intro h
  have e : TopTopics basicTables "go go network network network parsing parsing".toList 3 =
      Except.ok ["network".toList, "parsing".toList] := rfl
  rw [e] at h
  exact absurd (Except.ok.inj h) (by decide)

/-- C4 (amended): on "go go network network network parsing parsing" with
`n = 3` the code returns exactly `["network", "parsing"]`: the token "go" has
length 2 and is dropped by the short-token filter of line 69. -/
theorem TopTopics_example :
    TopTopics basicTables "go go network network network parsing parsing".toList 3 =
      Except.ok ["network".toList, "parsing".toList] ∧
    byteLen "go".toList = 2 ∧
    countedWords basicTables "go go network network network parsing parsing".toList =
      ["network".toList, "network".toList, "network".toList, "parsing".toList, "parsing".toList] :=
  ⟨rfl, rfl, rfl⟩

/-- C5 on the code: `TopTopics(text, 0)` returns the empty sequence, and for
every negative `n` the call panics in `make([]string, 0, n)` instead of
returning. -/
theorem TopTopics_nonpositive (U : UnicodeTables) (text : GoString) (n : Int) (hn : n ≤ 0) :
    TopTopics U text n =
      if n = 0 then Except.ok []
      else Except.error "panic: runtime error: makeslice: cap out of range" := by
  unfold TopTopics topOfList firstN
  have h1 : ¬ (n > ((sortSlice (kvList U text)).length : Int)) := by omega
  by_cases h0 : n = 0
  · subst h0
    simp only [h1, if_false, lt_self_iff_false, Int.toNat_zero, List.take_zero, List.map_nil, if_true]
  · have h2 : n < 0 := by omega
    simp only [h1, if_false, h2, if_true, h0]

/-- C5 on the code, at `n = -1`. -/
theorem TopTopics_nonpositive_witness :
    TopTopics basicTables "network".toList (-1) =
      Except.error "panic: runtime error: makeslice: cap out of range" :=
  TopTopics_nonpositive basicTables "network".toList (-1) (by decide)

/-- C6 on the code: a token is counted exactly when its UTF-8 encoding has at
least 3 bytes and it is not a stopword, so with `n` at least the vocabulary size
the output holds exactly those tokens; the two-character token "日本" (6 bytes)
is counted, and so is the one-character token "日" (3 bytes). -/
theorem TopTopics_counts_by_bytes :
    (∀ (U : UnicodeTables) (text : GoString) (n : Int),
      ((countedWords U text).dedup.length : Int) ≤ n →
      ∃ out, TopTopics U text n = Except.ok out ∧
        ∀ w, w ∈ out ↔ (w ∈ words U text ∧ 3 ≤ byteLen w ∧ w ∉ stopwords))
    ∧ TopTopics basicTables "日本".toList 1 = Except.ok ["日本".toList]
    ∧ "日本".toList.length = 2
    ∧ TopTopics basicTables "日".toList 1 = Except.ok ["日".toList]
    ∧ "日".toList.length = 1 := by
  refine ⟨?_, rfl, rfl, rfl, rfl⟩
  intro U text n hn
  have hn0 : 0 ≤ n := le_trans (Int.ofNat_nonneg _) hn
  have h1 := TopTopics_of_nonneg U text n hn0
  have h2 := ranking_perm U text
  refine ⟨_, h1, ?_⟩
  intro w
  have hlen : (ranking U text).length ≤ n.toNat := by
    rw [h2.length_eq]
    omega
  rw [List.take_of_length_le hlen, mem_ranking]
  unfold countedWords
  rw [List.mem_filter]
  simp

/-- C6 on the code, at the text "日本" with `n = 1`. -/
theorem TopTopics_counts_by_bytes_witness :
    ∃ out, TopTopics basicTables "日本".toList 1 = Except.ok out ∧
      ∀ w, w ∈ out ↔ (w ∈ words basicTables "日本".toList ∧ 3 ≤ byteLen w ∧ w ∉ stopwords) :=
  TopTopics_counts_by_bytes.1 basicTables "日本".toList 1 (by decide)

/-- C7: `TopTopics` is deterministic. Whatever order `l` the frequency map is
iterated in, and whatever sorted arrangement `s` of `l` the sort produces, the
result is that of `TopTopics`; the comparator is a strict total order on the
distinct entries of the map. -/
theorem TopTopics_deterministic (U : UnicodeTables) (text : GoString) (n : Int) (l s : List kv)
    (hl : l.Perm (kvList U text)) (hs : s.Perm l) (hsorted : s.Pairwise notAfter) :
    firstN s n = TopTopics U text n ∧
    topOfList l n = TopTopics U text n ∧
    (∀ a, less a a = false) ∧
    (∀ a b, less a b = true → less b a = false) ∧
    (∀ a b c, less a b = true → less b c = true → less a c = true) ∧
    (∀ a b, a ∈ kvList U text → b ∈ kvList U text → a ≠ b → less a b = true ∨ less b a = true) := by
  have e1 : s = sortSlice (kvList U text) := sorted_unique (hs.trans hl) hsorted
  have e2 : sortSlice l = sortSlice (kvList U text) :=
    sorted_unique ((sortSlice_perm l).trans hl) (sortSlice_sorted l)
  refine ⟨?_, ?_, ?_, ?_, ?_, ?_⟩
  · rw [e1]
    rfl
  · unfold topOfList
    rw [e2]
    rfl
  · intro a
    rw [← Bool.not_eq_true, less_iff]
    rintro (h | ⟨-, h⟩)
    · omega
    · rw [strLt_irrefl] at h
      exact absurd h (by simp)
  · intro a b hab
    rw [← Bool.not_eq_true, less_iff]
    rw [less_iff] at hab
    rintro (h | ⟨h1, h2⟩) <;> rcases hab with h3 | ⟨h3, h4⟩
    · omega
    · omega
    · omega
    · rw [strLt_asymm h4] at h2
      exact absurd h2 (by simp)
  · intro a b c hab hbc
    rw [less_iff] at hab hbc ⊢
    rcases hab with h1 | ⟨h1, h2⟩ <;> rcases hbc with h3 | ⟨h3, h4⟩
    · left; omega
    · left; omega
    · left; omega
    · right; exact ⟨by omega, strLt_trans h2 h4⟩
  · intro a b ha hb hab
    have ha1 := (mem_kvList U text a).mp ha
    have hb1 := (mem_kvList U text b).mp hb
    rw [less_iff, less_iff]
    rcases Nat.lt_trichotomy a.V b.V with h | h | h
    · right; left; exact h
    · rcases strLt_trichotomy a.K b.K with h1 | h1 | h1
      · left; right; exact ⟨h, h1⟩
      · exfalso
        apply hab
        cases a
        cases b
        simp_all
      · right; right; exact ⟨h.symm, h1⟩
    · left; left; exact h

/-- C7, on the text "parsing network network": the map read in the other
order, sorted, gives the same answer. -/
theorem TopTopics_deterministic_witness :
    firstN [⟨"network".toList, 2⟩, ⟨"parsing".toList, 1⟩] 1 =
        TopTopics basicTables "parsing network network".toList 1 ∧
    topOfList [⟨"network".toList, 2⟩, ⟨"parsing".toList, 1⟩] 1 =
        TopTopics basicTables "parsing network network".toList 1 :=
  have h := TopTopics_deterministic basicTables "parsing network network".toList 1
    [⟨"network".toList, 2⟩, ⟨"parsing".toList, 1⟩] [⟨"network".toList, 2⟩, ⟨"parsing".toList, 1⟩]
    (List.Perm.swap _ _ _) (List.Perm.refl _) (by decide)
  ⟨h.1, h.2.1⟩

/-! ## Theorems on `Fetch` -/

/-- C10 as stated fails: a response with status 200 and the declared media type
`text/html-sandboxed`, which is none of the empty type, `text/html` and
`application/xhtml+xml`, passes the content-type policy. -/
theorem Fetch_contentType_counterexample :
    (worldServing "text/html-sandboxed".toList).parseMediaType "text/html-sandboxed".toList ≠ [] ∧
    (worldServing "text/html-sandboxed".toList).parseMediaType "text/html-sandboxed".toList ≠
      "text/html".toList ∧
    (worldServing "text/html-sandboxed".toList).parseMediaType "text/html-sandboxed".toList ≠
      "application/xhtml+xml".toList ∧
    (Fetch { sizeCap := 1024 } (worldServing "text/html-sandboxed".toList) "http://a.test".toList).Err = none ∧
    (Fetch { sizeCap := 1024 } (worldServing "text/html-sandboxed".toList) "http://a.test".toList).Body =
      some [] := by
  decide

/-- What `Fetch` returns once a response with an accepted status is received:
the error of `gzip.NewReader` if the body has to be decompressed and its header
is bad, otherwise the verdict of the content-type test. -/
theorem Fetch_accepted (h : HTTPClient) (env : Env) (rawURL : GoString)
    (u : ParsedURL) (resp : Response)
    (hparse : env.urlParse rawURL = some u) (hscheme : u.Scheme ≠ []) (hhost : u.Host ≠ [])
    (hreq : env.newRequest u = none) (hdo : env.clientDo u = .ok resp)
    (hstatus : 200 ≤ resp.StatusCode ∧ resp.StatusCode < 400) :
    Fetch h env rawURL =
      match (if EqualFold resp.ContentEncoding "gzip".toList then env.gzipNewReader resp.Body
             else .ok resp.Body) with
      | .error err => failWith (.passed err)
      | .ok body =>
        if (!Contains (env.parseMediaType resp.ContentType) "text/html".toList &&
            !Contains (env.parseMediaType resp.ContentType) "application/xhtml+xml".toList &&
            env.parseMediaType resp.ContentType != []) = true then failWith .nonHTML
        else { Body := some (body.take h.sizeCap.toNat), FinalURL := resp.FinalURL,
               ContentType := resp.ContentType, Elapsed := env.since, Err := none } := by
  have hs : ¬ ((decide (resp.StatusCode < 200) || decide (resp.StatusCode >= 400)) = true) := by
    simp only [Bool.or_eq_true, decide_eq_true_eq, not_or]
    omega
  have hu : ¬ ((decide (u.Scheme = []) || decide (u.Host = [])) = true) := by
    simp [hscheme, hhost]
  unfold Fetch
  rw [hparse]
  dsimp only
  rw [if_neg hu, hreq]
  dsimp only
  rw [hdo]
  dsimp only
  rw [if_neg hs]

/-- The content-type test of line 81 rejects exactly the media types that are
non-empty and contain neither `text/html` nor `application/xhtml+xml`. -/
theorem contentType_test (mt : GoString) :
    (!Contains mt "text/html".toList && !Contains mt "application/xhtml+xml".toList &&
      mt != []) = true ↔
    ¬ (mt = [] ∨ Contains mt "text/html".toList = true ∨
       Contains mt "application/xhtml+xml".toList = true) := by
  simp only [Bool.and_eq_true, Bool.not_eq_true', bne_iff_ne, ne_eq, not_or, Bool.not_eq_true]
  tauto

/-- C10 (amended): for every response with an accepted status, `Fetch` passes
the content-type policy exactly when the declared media type is empty or
contains `text/html` or `application/xhtml+xml` as a substring: `Fetch` returns
without error if and only if the body stream is set up (a failing
`gzip.NewReader` returns its own error before the policy is reached) and the
media type is such a type. Every other media type makes `Fetch` return an error
and no stream. -/
theorem Fetch_contentType_policy (h : HTTPClient) (env : Env) (rawURL : GoString)
    (u : ParsedURL) (resp : Response)
    (hparse : env.urlParse rawURL = some u) (hscheme : u.Scheme ≠ []) (hhost : u.Host ≠ [])
    (hreq : env.newRequest u = none) (hdo : env.clientDo u = .ok resp)
    (hstatus : 200 ≤ resp.StatusCode ∧ resp.StatusCode < 400) :
    ((Fetch h env rawURL).Err = none ↔
      ((∃ body, (if EqualFold resp.ContentEncoding "gzip".toList then env.gzipNewReader resp.Body
                 else .ok resp.Body) = .ok body) ∧
       (env.parseMediaType resp.ContentType = [] ∨
        Contains (env.parseMediaType resp.ContentType) "text/html".toList = true ∨
        Contains (env.parseMediaType resp.ContentType) "application/xhtml+xml".toList = true))) ∧
    (¬ (env.parseMediaType resp.ContentType = [] ∨
        Contains (env.parseMediaType resp.ContentType) "text/html".toList = true ∨
        Contains (env.parseMediaType resp.ContentType) "application/xhtml+xml".toList = true) →
      (Fetch h env rawURL).Err ≠ none ∧ (Fetch h env rawURL).Body = none ∧
      (Fetch h env rawURL).FinalURL = [] ∧ (Fetch h env rawURL).ContentType = []) ∧
    ((env.parseMediaType resp.ContentType = [] ∨
        Contains (env.parseMediaType resp.ContentType) "text/html".toList = true ∨
        Contains (env.parseMediaType resp.ContentType) "application/xhtml+xml".toList = true) →
      (Fetch h env rawURL).Err ≠ some .nonHTML) ∧
    ((Fetch h env rawURL).Err = some .nonHTML ↔
      ((∃ body, (if EqualFold resp.ContentEncoding "gzip".toList then env.gzipNewReader resp.Body
                 else .ok resp.Body) = .ok body) ∧
       ¬ (env.parseMediaType resp.ContentType = [] ∨
        Contains (env.parseMediaType resp.ContentType) "text/html".toList = true ∨
        Contains (env.parseMediaType resp.ContentType) "application/xhtml+xml".toList = true))) ∧
    (∀ body, (if EqualFold resp.ContentEncoding "gzip".toList then env.gzipNewReader resp.Body
              else .ok resp.Body) = .ok body →
      (env.parseMediaType resp.ContentType = [] ∨
        Contains (env.parseMediaType resp.ContentType) "text/html".toList = true ∨
        Contains (env.parseMediaType resp.ContentType) "application/xhtml+xml".toList = true) →
      Fetch h env rawURL =
        { Body := some (body.take h.sizeCap.toNat), FinalURL := resp.FinalURL,
          ContentType := resp.ContentType, Elapsed := env.since, Err := none }) ∧
    (∀ err, (if EqualFold resp.ContentEncoding "gzip".toList then env.gzipNewReader resp.Body
             else .ok resp.Body) = .error err →
      Fetch h env rawURL = failWith (.passed err)) := by
  have heq := Fetch_accepted h env rawURL u resp hparse hscheme hhost hreq hdo hstatus
  have htest := contentType_test (env.parseMediaType resp.ContentType)
  rw [heq]
  cases hb : (if EqualFold resp.ContentEncoding "gzip".toList = true then
      env.gzipNewReader resp.Body else Except.ok resp.Body) with
  | error err =>
    dsimp only
    refine ⟨?_, ?_, ?_, ?_, ?_, ?_⟩
    · constructor
      · intro h0
        exact absurd h0 (by simp [failWith])
      · rintro ⟨⟨body, hbody⟩, _⟩
        exact absurd hbody (by simp)
    · intro _
      exact ⟨by simp [failWith], rfl, rfl, rfl⟩
    · intro _
      simp [failWith]
    · constructor
      · intro h0
        exact absurd h0 (by simp [failWith])
      · rintro ⟨⟨body, hbody⟩, _⟩
        exact absurd hbody (by simp)
    · intro body hbody
      exact absurd hbody (by simp)
    · intro err' herr
      rw [Except.error.inj herr]
  | ok body =>
    dsimp only
    by_cases hm : (!Contains (env.parseMediaType resp.ContentType) "text/html".toList &&
        !Contains (env.parseMediaType resp.ContentType) "application/xhtml+xml".toList &&
        env.parseMediaType resp.ContentType != []) = true
    · have hna := htest.mp hm
      rw [if_pos hm]
      refine ⟨?_, ?_, ?_, ?_, ?_, ?_⟩
      · constructor
        · intro h0
          exact absurd h0 (by simp [failWith])
        · rintro ⟨_, ha⟩
          exact absurd ha hna
      · intro _
        exact ⟨by simp [failWith], rfl, rfl, rfl⟩
      · intro ha
        exact absurd ha hna
      · exact ⟨fun _ => ⟨⟨body, rfl⟩, hna⟩, fun _ => rfl⟩
      · intro _ _ ha
        exact absurd ha hna
      · intro err herr
        exact absurd herr (by simp)
    · have ha : (env.parseMediaType resp.ContentType = [] ∨
          Contains (env.parseMediaType resp.ContentType) "text/html".toList = true ∨
          Contains (env.parseMediaType resp.ContentType) "application/xhtml+xml".toList = true) := by
        by_contra hc
        exact hm (htest.mpr hc)
      rw [if_neg hm]
      refine ⟨?_, ?_, ?_, ?_, ?_, ?_⟩
      · exact ⟨fun _ => ⟨⟨body, rfl⟩, ha⟩, fun _ => rfl⟩
      · intro hna
        exact absurd ha hna
      · intro _
        simp
      · constructor
        · intro h0
          exact absurd h0 (by simp)
        · rintro ⟨_, hna⟩
          exact absurd ha hna
      · intro body' hbody _
        rw [Except.ok.inj hbody]
      · intro err herr
        exact absurd herr (by simp)

/-- C10 (amended), on responses declaring `application/json`: rejected with no
stream, also when the body is gzip-encoded with a bad header. -/
theorem Fetch_contentType_policy_witness :
    ((Fetch { sizeCap := 1024 } (worldServing "application/json".toList) "http://a.test".toList).Err ≠
        none ∧
      (Fetch { sizeCap := 1024 } (worldServing "application/json".toList) "http://a.test".toList).Body =
        none) ∧
    ((Fetch { sizeCap := 1024 } (worldBadGzip "application/json".toList) "http://a.test".toList).Err ≠
        none ∧
      (Fetch { sizeCap := 1024 } (worldBadGzip "application/json".toList) "http://a.test".toList).Body =
        none) :=
  have h1 := (Fetch_contentType_policy { sizeCap := 1024 } (worldServing "application/json".toList)
    "http://a.test".toList
    { Scheme := "http".toList, Host := "a.test".toList, Str := "http://a.test".toList }
    { StatusCode := 200, ContentEncoding := [], ContentType := "application/json".toList, Body := [],
      FinalURL := "http://a.test".toList }
    rfl (by decide) (by decide) rfl rfl (by decide)).2.1 (by decide)
  have h2 := (Fetch_contentType_policy { sizeCap := 1024 } (worldBadGzip "application/json".toList)
    "http://a.test".toList
    { Scheme := "http".toList, Host := "a.test".toList, Str := "http://a.test".toList }
    { StatusCode := 200, ContentEncoding := "gzip".toList, ContentType := "application/json".toList,
      Body := [0], FinalURL := "http://a.test".toList }
    rfl (by decide) (by decide) rfl rfl (by decide)).2.1 (by decide)
  ⟨⟨h1.1, h1.2.1⟩, ⟨h2.1, h2.2.1⟩⟩

/-! ## Theorems on the tasks -/

theorem Fetch_empty_invalid (h : HTTPClient) (env : Env)
    (hparse : ∀ u, env.urlParse [] = some u → u.Scheme = []) :
    Fetch h env [] = failWith .invalidURL := by
  unfold Fetch
  cases hp : env.urlParse [] with
  | none => rfl
  | some u =>
    have hs := hparse u hp
    simp [hs]

/-- A CSV file with the header `URL`, a padded URL and an empty cell. -/
theorem ReadURLs_sampleCSV :
    ReadURLs sampleCSV = .ok ["http://a.test".toList] := by
  rfl

/-! ## Theorem on the empty URL -/

theorem count_set_add (l : List Phase) (i : Nat) (p q r : Phase) (h : l[i]? = some p) :
    (l.set i q).count r + (if p = r then 1 else 0) = l.count r + (if q = r then 1 else 0) := by
  induction l generalizing i with
  | nil => simp at h
  | cons x xs ih =>
    cases i with
    | zero =>
      simp only [List.getElem?_cons_zero, Option.some.injEq] at h
      subst h
      simp only [List.set_cons_zero, List.count_cons, beq_iff_eq]
      omega
    | succ k =>
      simp only [List.getElem?_cons_succ] at h
      have := ih k h
      simp only [List.set_cons_succ, List.count_cons, beq_iff_eq]
      omega

theorem getElem?_set_of_some {α : Type} (l : List α) (i j : Nat) (p q : α) (h : l[i]? = some p) :
    (l.set i q)[j]? = if j = i then some q else l[j]? := by
  have hi : i < l.length := by
    by_contra hc
    rw [List.getElem?_eq_none (by omega)] at h
    exact absurd h (by simp)
  rw [List.getElem?_set]
  by_cases hji : j = i
  · subst hji
    simp [hi]
  · have : ¬ i = j := fun e => hji e.symm
    simp [hji, this]

theorem lt_length_of_getElem? {α : Type} (l : List α) (i : Nat) (p : α) (h : l[i]? = some p) :
    i < l.length := by
  by_contra hc
  rw [List.getElem?_eq_none (by omega)] at h
  exact absurd h (by simp)

theorem init_inv (task : Nat → GoString → out) (urls : List GoString) :
    Inv task urls (Collect.init urls) where
  lenR := by simp [Collect.init]
  lenP := by simp [Collect.init]
  spawned_le := by simp [Collect.init]
  idle_of := by
    intro j hj _
    simp [Collect.init, List.getElem?_replicate, hj]
  of_idle := by
    intro j _
    simp [Collect.init]
  stored := by
    intro j h
    simp only [Collect.init, List.getElem?_replicate] at h
    split_ifs at h <;> simp at h
  semc := by simp [Collect.init, List.count_replicate]
  donec := by simp [Collect.init, List.count_replicate]

theorem step_inv (task : Nat → GoString → out) (urls : List GoString) (cap : Nat)
    (s s' : Collect) (e : Event) (hs : Inv task urls s) (hstep : step task urls cap s e = some s') :
    Inv task urls s' := by
  cases e with
  | spawn =>
    simp only [step] at hstep
    split_ifs at hstep with hg
    cases hstep
    have hp : s.phase[s.spawned]? = some .idle := hs.idle_of _ hg.1 (le_refl _)
    have hget := fun j => getElem?_set_of_some s.phase s.spawned j .idle .running hp
    have c1 := count_set_add s.phase s.spawned .idle .running .running hp
    have c2 := count_set_add s.phase s.spawned .idle .running .written hp
    have c3 := count_set_add s.phase s.spawned .idle .running .signalled hp
    simp at c1 c2 c3
    refine ⟨hs.lenR, by simpa using hs.lenP, hg.1, ?_, ?_, ?_, ?_, ?_⟩
    · intro j hj hle
      have hle' : s.spawned + 1 ≤ j := hle
      show (s.phase.set s.spawned .running)[j]? = _
      rw [hget, if_neg (by omega)]
      exact hs.idle_of j hj (by omega)
    · intro j hj
      change (s.phase.set s.spawned .running)[j]? = _ at hj
      rw [hget] at hj
      by_cases hji : j = s.spawned
      · simp [hji] at hj
      · rw [if_neg hji] at hj
        have := hs.of_idle j hj
        show s.spawned + 1 ≤ j
        omega
    · intro j hj
      change (s.phase.set s.spawned .running)[j]? = _ ∨ (s.phase.set s.spawned .running)[j]? = _ ∨
        (s.phase.set s.spawned .running)[j]? = _ at hj
      rw [hget] at hj
      by_cases hji : j = s.spawned
      · simp [hji] at hj
      · rw [if_neg hji] at hj
        exact hs.stored j hj
    · show s.sem + 1 = (s.phase.set s.spawned .running).count .running +
        (s.phase.set s.spawned .running).count .written
      have := hs.semc
      omega
    · show s.received + s.done.length = (s.phase.set s.spawned .running).count .signalled
      have := hs.donec
      omega
  | write i =>
    simp only [step] at hstep
    split_ifs at hstep with hp
    cases hstep
    have hi : i < s.phase.length := lt_length_of_getElem? _ _ _ hp
    have hget := fun j => getElem?_set_of_some s.phase i j .running .written hp
    have c1 := count_set_add s.phase i .running .written .running hp
    have c2 := count_set_add s.phase i .running .written .written hp
    have c3 := count_set_add s.phase i .running .written .signalled hp
    simp at c1 c2 c3
    refine ⟨by simpa using hs.lenR, by simpa using hs.lenP, hs.spawned_le, ?_, ?_, ?_, ?_, ?_⟩
    · intro j hj hle
      show (s.phase.set i .written)[j]? = _
      rw [hget]
      by_cases hji : j = i
      · subst hji
        have h1 := hs.idle_of j hj hle
        rw [hp] at h1
        exact absurd h1 (by simp)
      · rw [if_neg hji]
        exact hs.idle_of j hj hle
    · intro j hj
      change (s.phase.set i .written)[j]? = _ at hj
      rw [hget] at hj
      by_cases hji : j = i
      · simp [hji] at hj
      · rw [if_neg hji] at hj
        exact hs.of_idle j hj
    · intro j hj
      change (s.phase.set i .written)[j]? = _ ∨ (s.phase.set i .written)[j]? = _ ∨
        (s.phase.set i .written)[j]? = _ at hj
      show (s.results.set i (task i (urls.getD i [])))[j]? = _
      rw [hget] at hj
      by_cases hji : j = i
      · subst hji
        rw [List.getElem?_set]
        have : j < s.results.length := by
          rw [hs.lenR, ← hs.lenP]
          exact hi
        simp [this]
      · rw [if_neg hji] at hj
        rw [List.getElem?_set, if_neg (fun e => hji e.symm)]
        exact hs.stored j hj
    · show s.sem = (s.phase.set i .written).count .running + (s.phase.set i .written).count .written
      have := hs.semc
      omega
    · show s.received + s.done.length = (s.phase.set i .written).count .signalled
      have := hs.donec
      omega
  | release i =>
    simp only [step] at hstep
    split_ifs at hstep with hg
    cases hstep
    obtain ⟨hp, hsem⟩ := hg
    have hget := fun j => getElem?_set_of_some s.phase i j .written .released hp
    have c1 := count_set_add s.phase i .written .released .running hp
    have c2 := count_set_add s.phase i .written .released .written hp
    have c3 := count_set_add s.phase i .written .released .signalled hp
    simp at c1 c2 c3
    refine ⟨hs.lenR, by simpa using hs.lenP, hs.spawned_le, ?_, ?_, ?_, ?_, ?_⟩
    · intro j hj hle
      show (s.phase.set i .released)[j]? = _
      rw [hget]
      by_cases hji : j = i
      · subst hji
        have h1 := hs.idle_of j hj hle
        rw [hp] at h1
        exact absurd h1 (by simp)
      · rw [if_neg hji]
        exact hs.idle_of j hj hle
    · intro j hj
      change (s.phase.set i .released)[j]? = _ at hj
      rw [hget] at hj
      by_cases hji : j = i
      · simp [hji] at hj
      · rw [if_neg hji] at hj
        exact hs.of_idle j hj
    · intro j hj
      change (s.phase.set i .released)[j]? = _ ∨ (s.phase.set i .released)[j]? = _ ∨
        (s.phase.set i .released)[j]? = _ at hj
      rw [hget] at hj
      by_cases hji : j = i
      · subst hji
        exact hs.stored j (Or.inl hp)
      · rw [if_neg hji] at hj
        exact hs.stored j hj
    · show s.sem - 1 = (s.phase.set i .released).count .running +
        (s.phase.set i .released).count .written
      have := hs.semc
      omega
    · show s.received + s.done.length = (s.phase.set i .released).count .signalled
      have := hs.donec
      omega
  | signal i =>
    simp only [step] at hstep
    split_ifs at hstep with hg
    cases hstep
    obtain ⟨hp, hdone⟩ := hg
    have hget := fun j => getElem?_set_of_some s.phase i j .released .signalled hp
    have c1 := count_set_add s.phase i .released .signalled .running hp
    have c2 := count_set_add s.phase i .released .signalled .written hp
    have c3 := count_set_add s.phase i .released .signalled .signalled hp
    simp at c1 c2 c3
    refine ⟨hs.lenR, by simpa using hs.lenP, hs.spawned_le, ?_, ?_, ?_, ?_, ?_⟩
    · intro j hj hle
      show (s.phase.set i .signalled)[j]? = _
      rw [hget]
      by_cases hji : j = i
      · subst hji
        have h1 := hs.idle_of j hj hle
        rw [hp] at h1
        exact absurd h1 (by simp)
      · rw [if_neg hji]
        exact hs.idle_of j hj hle
    · intro j hj
      change (s.phase.set i .signalled)[j]? = _ at hj
      rw [hget] at hj
      by_cases hji : j = i
      · simp [hji] at hj
      · rw [if_neg hji] at hj
        exact hs.of_idle j hj
    · intro j hj
      change (s.phase.set i .signalled)[j]? = _ ∨ (s.phase.set i .signalled)[j]? = _ ∨
        (s.phase.set i .signalled)[j]? = _ at hj
      rw [hget] at hj
      by_cases hji : j = i
      · subst hji
        exact hs.stored j (Or.inr (Or.inl hp))
      · rw [if_neg hji] at hj
        exact hs.stored j hj
    · show s.sem = (s.phase.set i .signalled).count .running +
        (s.phase.set i .signalled).count .written
      have := hs.semc
      omega
    · show s.received + (s.done ++ [i]).length = (s.phase.set i .signalled).count .signalled
      have := hs.donec
      simp only [List.length_append, List.length_singleton]
      omega
  | recv =>
    simp only [step] at hstep
    split_ifs at hstep with hg
    cases hd : s.done with
    | nil => simp [hd] at hstep
    | cons i rest =>
      simp only [hd, Option.some.injEq] at hstep
      subst hstep
      refine ⟨hs.lenR, hs.lenP, hs.spawned_le, hs.idle_of, hs.of_idle, hs.stored, hs.semc, ?_⟩
      show s.received + 1 + rest.length = s.phase.count .signalled
      have := hs.donec
      rw [hd] at this
      simp only [List.length_cons] at this
      omega

theorem run_inv (task : Nat → GoString → out) (urls : List GoString) (cap : Nat)
    (sched : List Event) (s s' : Collect) (hs : Inv task urls s)
    (hrun : run task urls cap s sched = some s') : Inv task urls s' := by
  induction sched generalizing s with
  | nil =>
    simp only [run, Option.some.injEq] at hrun
    rw [← hrun]
    exact hs
  | cons e es ih =>
    simp only [run] at hrun
    cases hst : step task urls cap s e with
    | none => simp [hst] at hrun
    | some s1 =>
      simp only [hst] at hrun
      exact ih s1 (step_inv task urls cap s s1 e hs hst) hrun

theorem returned_correct (task : Nat → GoString → out) (urls : List GoString) (s : Collect)
    (hs : Inv task urls s) (rs : List out) (hret : returned urls s = some rs) :
    rs.length = urls.length ∧ ∀ i (h : i < urls.length), rs[i]? = some (task i urls[i]) := by
  unfold returned at hret
  split_ifs at hret with hg
  cases hret
  refine ⟨hs.lenR, ?_⟩
  intro i hi
  have hcount : s.phase.count .signalled = s.phase.length := by
    have h1 := hs.donec
    have h2 := List.count_le_length Phase.signalled s.phase
    have h3 := hs.lenP
    omega
  have hall := List.count_eq_length.mp hcount
  have hi' : i < s.phase.length := by rw [hs.lenP]; exact hi
  have hph : s.phase[i]? = some .signalled := by
    rw [List.getElem?_eq_getElem hi']
    rw [← hall _ (List.getElem_mem hi')]
  have := hs.stored i (Or.inr (Or.inr hph))
  rw [this]
  simp [List.getD_eq_getElem?_getD, hi]

theorem step_enabled (task : Nat → GoString → out) (urls : List GoString) (cap : Nat)
    (hcap : 0 < cap) (s : Collect) (hs : Inv task urls s) (hnot : returned urls s = none) :
    ∃ e s', step task urls cap s e = some s' := by
  by_cases h1 : Phase.running ∈ s.phase
  · obtain ⟨i, hi⟩ := List.getElem?_of_mem h1
    exact ⟨.write i, _, by rw [step, if_pos hi]⟩
  by_cases h2 : Phase.written ∈ s.phase
  · obtain ⟨i, hi⟩ := List.getElem?_of_mem h2
    have hpos : 0 < s.sem := by
      have := hs.semc
      have := List.count_pos_iff.mpr h2
      omega
    exact ⟨.release i, _, by rw [step, if_pos ⟨hi, hpos⟩]⟩
  by_cases h3 : Phase.released ∈ s.phase
  · obtain ⟨i, hi⟩ := List.getElem?_of_mem h3
    have hlt : s.done.length < urls.length := by
      have h4 := hs.donec
      have h5 := List.count_le_length Phase.signalled s.phase
      have h6 := hs.lenP
      have h7 : s.phase.count .signalled ≠ s.phase.length := by
        intro hc
        have := List.count_eq_length.mp hc _ h3
        exact absurd this (by simp)
      omega
    exact ⟨.signal i, _, by rw [step, if_pos ⟨hi, hlt⟩]⟩
  by_cases h4 : s.spawned < urls.length
  · have hsem : s.sem < cap := by
      have := hs.semc
      have := List.count_eq_zero.mpr h1
      have := List.count_eq_zero.mpr h2
      omega
    exact ⟨.spawn, _, by rw [step, if_pos ⟨h4, hsem⟩]⟩
  · have hsp : s.spawned = urls.length := by
      have := hs.spawned_le
      omega
    have hall : ∀ b ∈ s.phase, Phase.signalled = b := by
      intro b hb
      cases b with
      | idle =>
        obtain ⟨j, hj⟩ := List.getElem?_of_mem hb
        have hlt := lt_length_of_getElem? _ _ _ hj
        have := hs.of_idle j hj
        have := hs.lenP
        omega
      | running => exact absurd hb h1
      | written => exact absurd hb h2
      | released => exact absurd hb h3
      | signalled => rfl
    have hcount := List.count_eq_length.mpr hall
    have hrec : s.received ≠ urls.length := by
      intro hc
      simp [returned, hsp, hc] at hnot
    have hd := hs.donec
    have hl := hs.lenP
    cases hdone : s.done with
    | nil =>
      rw [hdone] at hd
      simp only [List.length_nil] at hd
      omega
    | cons i rest =>
      have hlt : s.received < urls.length := by
        rw [hdone] at hd
        simp only [List.length_cons] at hd
        omega
      exact ⟨.recv, _, by rw [step, if_pos ⟨hsp, hlt⟩, hdone]⟩

theorem step_remaining (task : Nat → GoString → out) (urls : List GoString) (cap : Nat)
    (s s' : Collect) (e : Event) (hs : Inv task urls s) (hstep : step task urls cap s e = some s') :
    remaining s' < remaining s := by
  have key : ∀ (i : Nat) (p q : Phase), s.phase[i]? = some p →
      (s.phase.set i q).count .idle + (if p = .idle then 1 else 0) =
        s.phase.count .idle + (if q = .idle then 1 else 0) ∧
      (s.phase.set i q).count .running + (if p = .running then 1 else 0) =
        s.phase.count .running + (if q = .running then 1 else 0) ∧
      (s.phase.set i q).count .written + (if p = .written then 1 else 0) =
        s.phase.count .written + (if q = .written then 1 else 0) ∧
      (s.phase.set i q).count .released + (if p = .released then 1 else 0) =
        s.phase.count .released + (if q = .released then 1 else 0) := by
    intro i p q hp
    exact ⟨count_set_add _ _ _ _ _ hp, count_set_add _ _ _ _ _ hp, count_set_add _ _ _ _ _ hp,
      count_set_add _ _ _ _ _ hp⟩
  cases e with
  | spawn =>
    simp only [step] at hstep
    split_ifs at hstep with hg
    cases hstep
    have hp : s.phase[s.spawned]? = some .idle := hs.idle_of _ hg.1 (le_refl _)
    have k := key s.spawned .idle .running hp
    simp at k
    simp only [remaining]
    omega
  | write i =>
    simp only [step] at hstep
    split_ifs at hstep with hp
    cases hstep
    have k := key i .running .written hp
    simp at k
    simp only [remaining]
    omega
  | release i =>
    simp only [step] at hstep
    split_ifs at hstep with hg
    cases hstep
    have k := key i .written .released hg.1
    simp at k
    simp only [remaining]
    omega
  | signal i =>
    simp only [step] at hstep
    split_ifs at hstep with hg
    cases hstep
    have k := key i .released .signalled hg.1
    simp at k
    simp only [remaining, List.length_append, List.length_singleton]
    omega
  | recv =>
    simp only [step] at hstep
    split_ifs at hstep with hg
    cases hd : s.done with
    | nil => simp [hd] at hstep
    | cons i rest =>
      simp only [hd, Option.some.injEq] at hstep
      subst hstep
      simp only [remaining, hd, List.length_cons]
      omega

theorem run_remaining (task : Nat → GoString → out) (urls : List GoString) (cap : Nat)
    (sched : List Event) (s s' : Collect) (hs : Inv task urls s)
    (hrun : run task urls cap s sched = some s') : sched.length + remaining s' ≤ remaining s := by
  induction sched generalizing s with
  | nil =>
    simp only [run, Option.some.injEq] at hrun
    rw [← hrun]
    simp
  | cons e es ih =>
    simp only [run] at hrun
    cases hst : step task urls cap s e with
    | none => simp [hst] at hrun
    | some s1 =>
      simp only [hst] at hrun
      have h1 := ih s1 (step_inv task urls cap s s1 e hs hst) hrun
      have h2 := step_remaining task urls cap s s1 e hs hst
      simp only [List.length_cons]
      omega

theorem remaining_init (urls : List GoString) : remaining (Collect.init urls) = 8 * urls.length := by
  simp [remaining, Collect.init, List.count_replicate]

theorem taskOut_URL (path : Path) (deps : Nat → Deps) (i : Nat) (u : GoString) :
    (taskOut path deps i u).URL = u := by
  have hf : ∀ d : Deps, (fetchTask d u).out.URL = u := by
    intro d
    unfold fetchTask
    dsimp only
    cases hE : (Fetch d.client d.env u).Err with
    | some err => rfl
    | none =>
      show (afterFetch d u _).URL = u
      unfold afterFetch
      cases hX : d.Extract ((Fetch d.client d.env u).Body.getD []) (Fetch d.client d.env u).ContentType <;> rfl
  unfold taskOut
  cases path with
  | cli => exact hf _
  | upload => exact hf _
  | batch =>
    show (batchTask (deps i) u).out.URL = u
    unfold batchTask
    by_cases hu : u = []
    · rw [if_pos hu]
    · rw [if_neg hu]
      exact hf _

/-! ## Theorem on the collect-mode run -/

/-- C8: in collect mode (command line and `/crawl/batch`), for every URL list,
every positive capacity of `sem` and every schedule of the tasks, the slice
handed over has the length of the input and its `i`-th entry is the outcome of
the task of the `i`-th URL, tagged with that URL. The run cannot get stuck
before handing over, and no schedule has more than `8 * len(urls)` events, so
every run hands the slice over. -/
theorem collect_order (path : Path) (_hpath : path ≠ .upload) (deps : Nat → Deps)
    (urls : List GoString) (cap : Nat) (hcap : 0 < cap) (sched : List Event) (s : Collect)
    (hrun : run (taskOut path deps) urls cap (Collect.init urls) sched = some s) :
    (∀ rs, returned urls s = some rs →
      rs.length = urls.length ∧
      ∀ i (h : i < urls.length),
        rs[i]? = some (taskOut path deps i urls[i]) ∧ (taskOut path deps i urls[i]).URL = urls[i]) ∧
    (returned urls s = none → ∃ e s', step (taskOut path deps) urls cap s e = some s') ∧
    (∀ e s', step (taskOut path deps) urls cap s e = some s' → remaining s' < remaining s) ∧
    sched.length + remaining s ≤ 8 * urls.length := by
  have hinv := run_inv _ urls cap sched _ s (init_inv (taskOut path deps) urls) hrun
  refine ⟨?_, ?_, ?_, ?_⟩
  · intro rs hret
    obtain ⟨h1, h2⟩ := returned_correct _ urls s hinv rs hret
    exact ⟨h1, fun i h => ⟨h2 i h, taskOut_URL path deps i _⟩⟩
  · exact step_enabled _ urls cap hcap s hinv
  · intro e s' hstep
    exact step_remaining _ urls cap s s' e hinv hstep
  · have := run_remaining _ urls cap sched _ s (init_inv (taskOut path deps) urls) hrun
    rw [remaining_init] at this
    exact this

/-- C8, on the `/crawl/batch` run of `["", "http://a.test"]` with capacity 2 in
which the second task completes before the first. -/
theorem collect_order_witness :
    [(batchTask (depsServing "text/html".toList) []).out,
      (batchTask (depsServing "text/html".toList) "http://a.test".toList).out].length = 2 ∧
    (batchTask (depsServing "text/html".toList) []).out.URL = [] ∧
    (batchTask (depsServing "text/html".toList) "http://a.test".toList).out.URL =
      "http://a.test".toList :=
  have h := (collect_order Path.batch (by decide) (fun _ => depsServing "text/html".toList)
    [[], "http://a.test".toList] 2 (by decide)
    [.spawn, .spawn, .write 1, .release 1, .signal 1, .write 0, .release 0, .signal 0, .recv, .recv]
    { results := [(batchTask (depsServing "text/html".toList) []).out,
                  (batchTask (depsServing "text/html".toList) "http://a.test".toList).out],
      phase := [.signalled, .signalled], spawned := 2, sem := 0, done := [], received := 2 }
    rfl).1 _ rfl
  ⟨h.1, (h.2 0 (by decide)).2, (h.2 1 (by decide)).2⟩

/-! ## Theorem on the status check of `Fetch` -/

/-- C11: when the response status is below 200 or at least 400, `Fetch` returns
the error "http status <code>" carrying that code, with no stream, an empty
final URL and an empty content type; when the status is in [200, 400) the error
of `Fetch`, if any, is not a status error. -/
theorem Fetch_status_check (h : HTTPClient) (env : Env) (rawURL : GoString)
    (u : ParsedURL) (resp : Response)
    (hparse : env.urlParse rawURL = some u) (hscheme : u.Scheme ≠ []) (hhost : u.Host ≠ [])
    (hreq : env.newRequest u = none) (hdo : env.clientDo u = .ok resp) :
    ((resp.StatusCode < 200 ∨ resp.StatusCode ≥ 400) →
      Fetch h env rawURL = failWith (.badStatus resp.StatusCode) ∧
      (Fetch h env rawURL).Err = some (.badStatus resp.StatusCode) ∧
      (FetchError.badStatus resp.StatusCode).Error =
        "http status ".toList ++ (toString resp.StatusCode).toList ∧
      (Fetch h env rawURL).Body = none ∧
      (Fetch h env rawURL).FinalURL = [] ∧
      (Fetch h env rawURL).ContentType = []) ∧
    ((200 ≤ resp.StatusCode ∧ resp.StatusCode < 400) →
      ∀ code, (Fetch h env rawURL).Err ≠ some (.badStatus code)) := by
  have hu : ¬ ((decide (u.Scheme = []) || decide (u.Host = [])) = true) := by
    simp [hscheme, hhost]
  constructor
  · intro hbad
    have hs : (decide (resp.StatusCode < 200) || decide (resp.StatusCode >= 400)) = true := by
      simp only [Bool.or_eq_true, decide_eq_true_eq]
      exact hbad
    have heq : Fetch h env rawURL = failWith (.badStatus resp.StatusCode) := by
      unfold Fetch
      rw [hparse]
      dsimp only
      rw [if_neg hu, hreq]
      dsimp only
      rw [hdo]
      dsimp only
      rw [if_pos hs]
    rw [heq]
    exact ⟨rfl, rfl, rfl, rfl, rfl, rfl⟩
  · intro hok code
    have hs : ¬ ((decide (resp.StatusCode < 200) || decide (resp.StatusCode >= 400)) = true) := by
      simp only [Bool.or_eq_true, decide_eq_true_eq, not_or]
      omega
    unfold Fetch
    rw [hparse]
    dsimp only
    rw [if_neg hu, hreq]
    dsimp only
    rw [hdo]
    dsimp only
    rw [if_neg hs]
    cases hb : (if EqualFold resp.ContentEncoding "gzip".toList = true then
        env.gzipNewReader resp.Body else Except.ok resp.Body) with
    | error err => simp [failWith]
    | ok body =>
      dsimp only
      split_ifs <;> simp [failWith]

/-- C11, on a response with status 500. -/
theorem Fetch_status_check_witness :
    Fetch { sizeCap := 1024 } (worldStatus 500) "http://a.test".toList = failWith (.badStatus 500) ∧
    (FetchError.badStatus 500).Error = "http status 500".toList :=
  have h := (Fetch_status_check { sizeCap := 1024 } (worldStatus 500) "http://a.test".toList
    { Scheme := "http".toList, Host := "a.test".toList, Str := "http://a.test".toList }
    { StatusCode := 500, ContentEncoding := [], ContentType := "text/html".toList, Body := [],
      FinalURL := "http://a.test".toList }
    rfl (by decide) (by decide) rfl rfl).1 (Or.inr (by decide))
  ⟨h.1, by decide⟩

/-! ## Lemmas on the document operations -/

theorem Find_append (m : Matcher) (a b : List Node) : Find m (a ++ b) = Find m a ++ Find m b := by
  induction a with
  | nil => simp [Find]
  | cons n ns ih => simp [Find, ih]

mutual
theorem Node.remove_replaceInside (m : Matcher) (g : List Node → List Node) :
    ∀ n : Node, (n.replaceInside m g).remove m = n.remove m
  | .text data => by simp [Node.replaceInside, Node.remove]
  | .elem tag attrs kids => by
    by_cases h : m tag attrs = true
    · simp [Node.replaceInside, Node.remove, h]
    · simp [Node.replaceInside, Node.remove, h, Remove_replaceInside m g kids]
theorem Remove_replaceInside (m : Matcher) (g : List Node → List Node) :
    ∀ l : List Node, Remove m (replaceInside m g l) = Remove m l
  | [] => by simp [replaceInside, Remove]
  | n :: ns => by
    simp [replaceInside, Remove, Node.remove_replaceInside m g n, Remove_replaceInside m g ns]
end

mutual
theorem Node.find_remove (m : Matcher) : ∀ n : Node, Find m (n.remove m) = []
  | .text data => by simp [Node.remove, Find, Node.find]
  | .elem tag attrs kids => by
    by_cases h : m tag attrs = true
    · simp [Node.remove, h, Find]
    · simp [Node.remove, h, Find, Node.find, Find_remove m kids]
theorem Find_remove (m : Matcher) : ∀ l : List Node, Find m (Remove m l) = []
  | [] => by simp [Remove, Find]
  | n :: ns => by
    simp [Remove, Find_append, Node.find_remove m n, Find_remove m ns]
end

theorem extractDoc_Text (U : UnicodeTables) (doc : List Node) :
    (extractDoc U doc).Content.Text = mainText (Remove scriptLike doc) ∧
    (extractDoc U doc).Content.WordCount = countWords (mainText (Remove scriptLike doc)) :=
  ⟨rfl, rfl⟩

theorem Extract_ok (U : UnicodeTables) (env : ParserEnv) (data : List Nat) (ct : GoString)
    (page : Page) (h : Extract U env data ct = .ok page) :
    ∃ doc, page = extractDoc U doc := by
  unfold Extract at h
  dsimp only at h
  split at h
  · exact absurd h (by simp)
  · split at h
    · exact absurd h (by simp)
    · rename_i doc _
      exact ⟨doc, (Except.ok.inj h).symm⟩

/-! ## Theorem on the removal of `script`, `noscript` and `style` -/

/-- C12: the text `Extract` returns holds nothing from inside a `script`,
`style` or `noscript` element. Whatever the content of those elements is
replaced by, `Extract` returns the same page, so the same `Content.Text` and
`WordCount`; the document the p/li texts are gathered from has no such element
left. On the sample document the script and style texts are absent. -/
theorem Extract_ignores_scriptLike (U : UnicodeTables) (env : ParserEnv) (data : List Nat)
    (ct : GoString) (g : List Node → List Node) :
    Extract U { env with parseHTML := fun b => (env.parseHTML b).map (replaceInside scriptLike g) }
        data ct = Extract U env data ct ∧
    (∀ doc, extractDoc U (replaceInside scriptLike g doc) = extractDoc U doc) ∧
    (∀ doc, Find scriptLike (Remove scriptLike doc) = []) ∧
    (∀ doc, (extractDoc U doc).Content.Text =
        TrimSpace (replaceWhitespace (Join (textParts (Remove scriptLike doc)) " ".toList)) ∧
      (extractDoc U doc).Content.WordCount = countWords (extractDoc U doc).Content.Text) ∧
    (extractDoc basicTables sampleDoc).Content.Text = "Hello world a\u00a0b".toList ∧
    (extractDoc basicTables sampleDoc).Content.WordCount = 4 := by
  have hdoc : ∀ doc, extractDoc U (replaceInside scriptLike g doc) = extractDoc U doc := by
    intro doc
    unfold extractDoc
    rw [Remove_replaceInside]
  refine ⟨?_, hdoc, Find_remove scriptLike, fun doc => ⟨rfl, rfl⟩, by decide, by decide⟩
  unfold Extract
  dsimp only
  cases hd : (match env.decode data ct with
      | .ok d => (Except.ok d : Except GoString (List Nat))
      | .error err => if (!env.utf8Valid data) = true then .error err else .ok data) with
  | error err => rfl
  | ok bytes =>
    dsimp only
    cases hp : env.parseHTML bytes with
    | error err => rfl
    | ok doc =>
      simp only [Except.map, hdoc]

/-- C12, on the sample document with the content of its script and style
elements emptied. -/
theorem Extract_ignores_scriptLike_witness :
    Extract basicTables (parserServing (replaceInside scriptLike (fun _ => []) sampleDoc)) [] [] =
      Extract basicTables (parserServing sampleDoc) [] [] :=
  (Extract_ignores_scriptLike basicTables (parserServing sampleDoc) [] [] (fun _ => [])).1

/-! ## Lemmas on the normalised text -/

theorem TrimSpace_within (s : GoString) : TrimSpace s <:+: s :=
  (List.rdropWhile_prefix IsSpace (s.dropWhile IsSpace)).isInfix.trans
    (List.dropWhile_suffix IsSpace).isInfix

theorem TrimSpace_head (s : GoString) (c : Char) (h : (TrimSpace s).head? = some c) :
    IsSpace c = false := by
  unfold TrimSpace at h
  obtain ⟨t, ht⟩ := List.rdropWhile_prefix IsSpace (s.dropWhile IsSpace)
  cases hr : List.rdropWhile IsSpace (List.dropWhile IsSpace s) with
  | nil => simp [hr] at h
  | cons x xs =>
    rw [hr] at h ht
    simp only [List.head?_cons, Option.some.injEq] at h
    subst h
    have h1 := List.head?_dropWhile_not IsSpace s
    rw [← ht] at h1
    simpa using h1

theorem TrimSpace_last (s : GoString) (c : Char) (h : (TrimSpace s).getLast? = some c) :
    IsSpace c = false := by
  unfold TrimSpace at h
  have hne : List.rdropWhile IsSpace (List.dropWhile IsSpace s) ≠ [] := by
    intro e
    rw [e] at h
    simp at h
  have h1 := List.rdropWhile_last_not IsSpace (List.dropWhile IsSpace s) hne
  rw [List.getLast?_eq_getLast _ hne] at h
  simp only [Option.some.injEq] at h
  rw [h] at h1
  simpa using h1

theorem collapseRun_mem (b : Bool) (s : List Char) (c : Char) (hc : c ∈ collapseRun b s)
    (hs : isSpaceRE c = true) : c = ' ' := by
  induction s generalizing b with
  | nil => simp [collapseRun] at hc
  | cons x xs ih =>
    by_cases hx : isSpaceRE x = true
    · cases b with
      | true =>
        have e : collapseRun true (x :: xs) = collapseRun true xs := by
          simp [collapseRun, hx]
        rw [e] at hc
        exact ih true hc
      | false =>
        have e : collapseRun false (x :: xs) = ' ' :: collapseRun true xs := by
          simp [collapseRun, hx]
        rw [e] at hc
        rcases List.mem_cons.mp hc with h1 | h1
        · exact h1
        · exact ih true h1
    · have e : collapseRun b (x :: xs) = x :: collapseRun false xs := by
        simp [collapseRun, hx]
      rw [e] at hc
      rcases List.mem_cons.mp hc with h1 | h1
      · rw [h1] at hs
        exact absurd hs hx
      · exact ih false h1

theorem collapseRun_chain (b : Bool) (s : List Char) :
    (collapseRun b s).Chain' (fun x y => ¬ (isSpaceRE x = true ∧ isSpaceRE y = true)) ∧
    (b = true → ∀ c, (collapseRun b s).head? = some c → isSpaceRE c = false) := by
  induction s generalizing b with
  | nil => simp [collapseRun]
  | cons x xs ih =>
    by_cases hx : isSpaceRE x = true
    · cases b with
      | true =>
        have e : collapseRun true (x :: xs) = collapseRun true xs := by
          simp [collapseRun, hx]
        rw [e]
        exact ih true
      | false =>
        have e : collapseRun false (x :: xs) = ' ' :: collapseRun true xs := by
          simp [collapseRun, hx]
        rw [e]
        refine ⟨?_, by simp⟩
        rw [List.chain'_cons']
        refine ⟨?_, (ih true).1⟩
        intro y hy
        have := (ih true).2 rfl y (by simpa using hy)
        simp [this]
    · have e : collapseRun b (x :: xs) = x :: collapseRun false xs := by
        simp [collapseRun, hx]
      rw [e]
      constructor
      · rw [List.chain'_cons']
        refine ⟨?_, (ih false).1⟩
        intro y _
        simp [hx]
      · intro _ c hc
        simp only [List.head?_cons, Option.some.injEq] at hc
        rw [← hc]
        simpa using hx

theorem fieldsAux_ne_nil (f : Char → Bool) (s cur : List Char) (h : cur ≠ []) :
    fieldsAux f s cur ≠ [] := by
  induction s generalizing cur with
  | nil =>
    cases cur with
    | nil => exact absurd rfl h
    | cons a as => simp [fieldsAux]
  | cons x xs ih =>
    cases cur with
    | nil => exact absurd rfl h
    | cons a as =>
      unfold fieldsAux
      by_cases hx : f x = true
      · simp [hx]
      · simp only [hx, if_false]
        exact ih (x :: a :: as) (by simp)

theorem Fields_ne_nil (s : GoString) (hs : s ≠ [])
    (hhead : ∀ c, s.head? = some c → IsSpace c = false) : Fields s ≠ [] := by
  cases s with
  | nil => exact absurd rfl hs
  | cons x xs =>
    have hx := hhead x rfl
    unfold Fields FieldsFunc fieldsAux
    simp only [hx, Bool.false_eq_true, if_false]
    exact fieldsAux_ne_nil IsSpace xs [x] (by simp)

theorem mainText_props (doc : List Node) :
    (∀ c, (mainText doc).head? = some c → IsSpace c = false) ∧
    (∀ c, (mainText doc).getLast? = some c → IsSpace c = false) ∧
    (∀ c, c ∈ mainText doc → isSpaceRE c = true → c = ' ') ∧
    (mainText doc).Chain' (fun x y => ¬ (x = ' ' ∧ y = ' ')) ∧
    countWords (mainText doc) = ((Fields (mainText doc)).length : Int) ∧
    (countWords (mainText doc) = 0 ↔ mainText doc = []) := by
  have hinf : mainText doc <:+: replaceWhitespace (Join (textParts doc) " ".toList) :=
    TrimSpace_within _
  refine ⟨TrimSpace_head _, TrimSpace_last _, ?_, ?_, ?_, ?_⟩
  · intro c hc hs
    exact collapseRun_mem false _ c (hinf.subset hc) hs
  · have h1 := List.Chain'.infix (collapseRun_chain false (Join (textParts doc) " ".toList)).1 hinf
    refine h1.imp ?_
    intro x y hxy hsp
    apply hxy
    rw [hsp.1, hsp.2]
    exact ⟨by decide, by decide⟩
  · unfold countWords
    by_cases h : mainText doc = []
    · rw [h]
      decide
    · simp only [ne_eq, h, not_false_eq_true, if_true]
  · constructor
    · intro h0
      by_contra hne
      have hf := Fields_ne_nil (mainText doc) hne (TrimSpace_head _)
      unfold countWords at h0
      simp only [ne_eq, hne, not_false_eq_true, if_true] at h0
      have : (Fields (mainText doc)).length = 0 := by exact_mod_cast h0
      exact hf (List.length_eq_zero.mp this)
    · intro h
      rw [h]
      decide

/-! ## Theorems on the normalised text -/

/-- C13 as stated fails: on the document `<p>a&nbsp;b</p>` the text `Extract`
returns holds U+00A0, a white-space rune that is not a space, and `WordCount`
is 2 although the text has a single token between runes of the class `\s`. -/
theorem Extract_text_counterexample :
    (∃ page, Extract basicTables (parserServing nbspDoc) [] [] = .ok page ∧
      page.Content.Text = "a\u00a0b".toList ∧ page.Content.WordCount = 2) ∧
    IsSpace '\u00a0' = true ∧
    '\u00a0' ∈ "a\u00a0b".toList ∧
    '\u00a0' ≠ ' ' ∧
    (FieldsFunc "a\u00a0b".toList isSpaceRE).length = 1 :=
  ⟨⟨extractDoc basicTables nbspDoc, rfl, by decide, by decide⟩, by decide, by decide, by decide,
    by decide⟩

/-- C13 (amended): for every document `Extract` accepts, `Content.Text` is the
trimmed p/li texts (empty ones dropped) joined by single spaces, with every run
of runes of the class `\s` = `[\t\n\f\r ]` collapsed to one space and then
trimmed of Unicode white space: it has no leading or trailing white space, and
no rune of the class `\s` other than isolated single spaces (other Unicode
white space stays in the text). `WordCount` is the number of tokens of
`Content.Text` between runs of Unicode white space, and is 0 exactly when the
text is empty. -/
theorem Extract_text_normalized (U : UnicodeTables) (doc : List Node) :
    (∀ (env : ParserEnv) (data : List Nat) (ct : GoString) (page : Page),
      Extract U env data ct = .ok page → ∃ parsed, page = extractDoc U parsed) ∧
    (extractDoc U doc).Content.Text =
      TrimSpace (replaceWhitespace (Join (textParts (Remove scriptLike doc)) " ".toList)) ∧
    textParts (Remove scriptLike doc) =
      ((Find (selTags ["p", "li"]) (Remove scriptLike doc)).map (fun s => TrimSpace s.Text)).filter
        (fun t => decide (t ≠ [])) ∧
    (∀ c, (extractDoc U doc).Content.Text.head? = some c → IsSpace c = false) ∧
    (∀ c, (extractDoc U doc).Content.Text.getLast? = some c → IsSpace c = false) ∧
    (∀ c, c ∈ (extractDoc U doc).Content.Text → isSpaceRE c = true → c = ' ') ∧
    (extractDoc U doc).Content.Text.Chain' (fun x y => ¬ (x = ' ' ∧ y = ' ')) ∧
    (extractDoc U doc).Content.WordCount = ((Fields (extractDoc U doc).Content.Text).length : Int) ∧
    ((extractDoc U doc).Content.WordCount = 0 ↔ (extractDoc U doc).Content.Text = []) := by
  obtain ⟨h1, h2, h3, h4, h5, h6⟩ := mainText_props (Remove scriptLike doc)
  exact ⟨Extract_ok U, rfl, rfl, h1, h2, h3, h4, h5, h6⟩

/-- C13 (amended), on the sample document. -/
theorem Extract_text_normalized_witness :
    (extractDoc basicTables sampleDoc).Content.WordCount =
      ((Fields (extractDoc basicTables sampleDoc).Content.Text).length : Int) ∧
    ((extractDoc basicTables sampleDoc).Content.WordCount = 0 ↔
      (extractDoc basicTables sampleDoc).Content.Text = []) :=
  have h := Extract_text_normalized basicTables sampleDoc
  ⟨h.2.2.2.2.2.2.2.1, h.2.2.2.2.2.2.2.2⟩

/-! ## Lemmas on matching inside a longer text -/

theorem matchPlus_append (p : Char → Bool) (k k' : List Char → Bool) (r : List Char)
    (hk : ∀ t, k t = true → k' (t ++ r) = true) :
    ∀ t, matchPlus p k t = true → matchPlus p k' (t ++ r) = true := by
  intro t
  induction t with
  | nil => simp [matchPlus]
  | cons c cs ih =>
    intro h
    simp only [matchPlus, Bool.and_eq_true, Bool.or_eq_true] at h
    simp only [List.cons_append, matchPlus, Bool.and_eq_true, Bool.or_eq_true]
    refine ⟨h.1, ?_⟩
    rcases h.2 with h2 | h2
    · exact Or.inl (hk cs h2)
    · exact Or.inr (ih h2)

theorem matchItems_append (fold : Bool) (ps : List Item) :
    ∀ t r, matchItems fold ps t = true → matchItems fold ps (t ++ r) = true := by
  induction ps with
  | nil =>
    intro t r _
    simp [matchItems]
  | cons item ps ih =>
    intro t r h
    cases item with
    | one a =>
      cases t with
      | nil => simp [matchItems] at h
      | cons c cs =>
        simp only [matchItems, Bool.and_eq_true] at h
        simp only [List.cons_append, matchItems, Bool.and_eq_true]
        exact ⟨h.1, ih cs r h.2⟩
    | opt a =>
      cases t with
      | nil =>
        simp only [matchItems, Bool.or_false] at h
        have h1 := ih [] r h
        simp only [List.nil_append] at h1 ⊢
        cases r with
        | nil => simp [matchItems, h1]
        | cons c cs => simp [matchItems, h1]
      | cons c cs =>
        simp only [matchItems, Bool.or_eq_true, Bool.and_eq_true] at h
        simp only [List.cons_append, matchItems, Bool.or_eq_true, Bool.and_eq_true]
        rcases h with h | h
        · exact Or.inl (ih (c :: cs) r h)
        · exact Or.inr ⟨h.1, ih cs r h.2⟩
    | plus a =>
      simp only [matchItems] at h ⊢
      exact matchPlus_append _ _ _ r (fun t ht => ih t r ht) t h

theorem matchesAt_append (re : Regexp) (t r : List Char) (h : re.matchesAt t = true) :
    re.matchesAt (t ++ r) = true := by
  unfold Regexp.matchesAt at h ⊢
  rw [List.any_eq_true] at h ⊢
  obtain ⟨alt, ha, hm⟩ := h
  exact ⟨alt, ha, matchItems_append _ alt t r hm⟩

theorem found_append_right (re : Regexp) (t r : List Char) (h : re.found t = true) :
    re.found (t ++ r) = true := by
  induction t with
  | nil =>
    simp only [Regexp.found] at h
    have h1 := matchesAt_append re [] r h
    simp only [List.nil_append] at h1 ⊢
    cases r with
    | nil => simpa [Regexp.found] using h1
    | cons c cs => simp [Regexp.found, h1]
  | cons c cs ih =>
    simp only [Regexp.found, Bool.or_eq_true] at h
    simp only [List.cons_append, Regexp.found, Bool.or_eq_true]
    rcases h with h | h
    · exact Or.inl (matchesAt_append re (c :: cs) r h)
    · exact Or.inr (ih h)

theorem found_append_left (re : Regexp) (l t : List Char) (h : re.found t = true) :
    re.found (l ++ t) = true := by
  induction l with
  | nil => simpa using h
  | cons c cs ih => simp [Regexp.found, ih]

theorem found_within (re : Regexp) (a b : List Char) (hab : a <:+: b) (h : re.found a = true) :
    re.found b = true := by
  obtain ⟨l, r, rfl⟩ := hab
  exact found_append_right re _ r (found_append_left re l a h)

theorem Contains_iff_within (s sub : GoString) : Contains s sub = true ↔ sub <:+: s := by
  induction s with
  | nil => simp [Contains, List.isEmpty_iff]
  | cons c cs ih =>
    simp only [Contains, Bool.or_eq_true, List.isPrefixOf_iff_prefix, ih]
    exact List.infix_cons_iff.symm

theorem Join_within (l : List GoString) (sep h : GoString) (hh : h ∈ l) : h <:+: Join l sep := by
  induction l with
  | nil => simp at hh
  | cons a rest ih =>
    cases rest with
    | nil =>
      simp only [List.mem_singleton] at hh
      subst hh
      simp [Join]
    | cons b rest2 =>
      rcases List.mem_cons.mp hh with h1 | h1
      · subst h1
        simp only [Join, List.append_assoc]
        exact ⟨[], sep ++ Join (b :: rest2) sep, by simp⟩
      · have h2 := ih h1
        simp only [Join]
        exact h2.trans ⟨a ++ sep, [], by simp⟩

theorem heading_within (U : UnicodeTables) (p : Page) (h : GoString) (hh : h ∈ p.Content.Headings) :
    ToLower U h <:+: classifyText U p := by
  unfold classifyText ToLower
  exact List.IsInfix.map U.ToLower
    ((Join_within p.Content.Headings " ".toList h hh).trans
      ⟨p.Content.Text ++ " ".toList, [], by simp⟩)

mutual
theorem Node.find_mono (m m' : Matcher) (hm : ∀ t a, m t a = true → m' t a = true) :
    ∀ (n x : Node), x ∈ n.find m → x ∈ n.find m'
  | .text data, x, hx => by simp [Node.find] at hx
  | .elem tag attrs kids, x, hx => by
    by_cases h : m tag attrs = true
    · have h' := hm tag attrs h
      simp only [Node.find, h, if_true, List.mem_cons] at hx
      simp only [Node.find, h', if_true, List.mem_cons]
      rcases hx with hx | hx
      · exact Or.inl hx
      · exact Or.inr (Find_mono m m' hm kids x hx)
    · simp only [Node.find, h, if_false] at hx
      have h2 := Find_mono m m' hm kids x hx
      by_cases h' : m' tag attrs = true
      · simp only [Node.find, h', if_true, List.mem_cons]
        exact Or.inr h2
      · simp only [Node.find, h', if_false]
        exact h2
theorem Find_mono (m m' : Matcher) (hm : ∀ t a, m t a = true → m' t a = true) :
    ∀ (l : List Node) (x : Node), x ∈ Find m l → x ∈ Find m' l
  | [], x, hx => by simp [Find] at hx
  | n :: ns, x, hx => by
    simp only [Find, List.mem_append] at hx ⊢
    rcases hx with hx | hx
    · exact Or.inl (Node.find_mono m m' hm n x hx)
    · exact Or.inr (Find_mono m m' hm ns x hx)
end

theorem selTag_le_headings (t : String) (ht : t = "h1" ∨ t = "h2") :
    ∀ tag attrs, selTag t tag attrs = true → selTags ["h1", "h2", "h3"] tag attrs = true := by
  intro tag attrs h
  simp only [selTag, beq_iff_eq] at h
  rcases ht with rfl | rfl <;> simp [selTags, h]

theorem metaHeadings_in_headings (U : UnicodeTables) (doc : List Node) :
    ((extractDoc U doc).Meta.H1 ≠ [] →
      (extractDoc U doc).Meta.H1 ∈ (extractDoc U doc).Content.Headings) ∧
    (∀ h, h ∈ (extractDoc U doc).Meta.H2 → h ∈ (extractDoc U doc).Content.Headings) := by
  constructor
  · intro hne
    change TrimSpace (textOf (First (Find (selTag "h1") (Remove scriptLike doc)))) ≠ [] at hne
    show TrimSpace (textOf (First (Find (selTag "h1") (Remove scriptLike doc)))) ∈
      textsOf (selTags ["h1", "h2", "h3"]) (Remove scriptLike doc)
    cases hf : Find (selTag "h1") (Remove scriptLike doc) with
    | nil =>
      rw [hf] at hne
      exact absurd (by decide) hne
    | cons n ns =>
      have hn : n ∈ Find (selTags ["h1", "h2", "h3"]) (Remove scriptLike doc) := by
        apply Find_mono _ _ (selTag_le_headings "h1" (Or.inl rfl))
        rw [hf]
        exact List.mem_cons_self _ _
      rw [hf] at hne
      have e : textOf (First (n :: ns)) = n.Text := by
        simp [First, textOf]
      rw [e] at hne ⊢
      unfold textsOf
      rw [List.mem_filter]
      exact ⟨List.mem_map.mpr ⟨n, hn, rfl⟩, by simpa using hne⟩
  · intro h hh
    change h ∈ textsOf (selTag "h2") (Remove scriptLike doc) at hh
    show h ∈ textsOf (selTags ["h1", "h2", "h3"]) (Remove scriptLike doc)
    unfold textsOf at hh ⊢
    rw [List.mem_filter] at hh ⊢
    obtain ⟨hm, hne⟩ := hh
    obtain ⟨n, hn, rfl⟩ := List.mem_map.mp hm
    exact ⟨List.mem_map.mpr
      ⟨n, Find_mono _ _ (selTag_le_headings "h2" (Or.inr rfl)) _ n hn, rfl⟩, hne⟩

/-! ## Theorems on the text `Classify` reads -/

/-- C14 as stated fails: for the page whose only heading is `Meta.H1` = "Buy now",
the lower-cased string made of `Content.Text` and the Meta headings holds the
cart phrase, but `Classify` does not read it and labels the page other. -/
theorem Classify_meta_headings_counterexample :
    cartRe.found (ToLower basicTables
      (([] : GoString) ++ " ".toList ++ Join ("Buy now".toList :: []) " ".toList)) = true ∧
    cartRe.found (classifyText basicTables { Meta := { H1 := "Buy now".toList } }) = false ∧
    (Classify basicTables { Meta := { H1 := "Buy now".toList } }).Label = "other" := by
  decide

/-- C14 (amended): `Classify` evaluates its text signals against the lower-cased
string made of `Content.Text`, a space, and the `Content.Headings` entries
joined by single spaces, so a signal phrase that occurs only in an entry of
`Content.Headings` still fires its signal. `Meta.H1` and `Meta.H2` are not
read; in a page built by `Extract`, a non-empty `Meta.H1` and every entry of
`Meta.H2` are entries of `Content.Headings`. -/
theorem Classify_reads_content_headings (U : UnicodeTables) (p : Page) :
    classifyText U p =
      ToLower U (p.Content.Text ++ " ".toList ++ Join p.Content.Headings " ".toList) ∧
    (∀ (re : Regexp) (h : GoString), h ∈ p.Content.Headings →
      re.found (ToLower U h) = true → re.found (classifyText U p) = true) ∧
    (∀ h : GoString, h ∈ p.Content.Headings →
      Contains (ToLower U h) "blog".toList = true →
      Contains (classifyText U p) "blog".toList = true) ∧
    (∀ h : GoString, h ∈ p.Content.Headings →
      (priceRe.found (ToLower U h) = true ∨ cartRe.found (ToLower U h) = true) →
      (Classify U p).Label = "product") ∧
    (∀ (h1 : GoString) (h2 : List GoString),
      Classify U { p with Meta := { p.Meta with H1 := h1, H2 := h2 } } = Classify U p) ∧
    (∀ doc : List Node,
      ((extractDoc U doc).Meta.H1 ≠ [] →
        (extractDoc U doc).Meta.H1 ∈ (extractDoc U doc).Content.Headings) ∧
      (∀ h, h ∈ (extractDoc U doc).Meta.H2 → h ∈ (extractDoc U doc).Content.Headings)) := by
  have hfound : ∀ (re : Regexp) (h : GoString), h ∈ p.Content.Headings →
      re.found (ToLower U h) = true → re.found (classifyText U p) = true :=
    fun re h hh hf => found_within re _ _ (heading_within U p h hh) hf
  refine ⟨rfl, hfound, ?_, ?_, fun _ _ => rfl, metaHeadings_in_headings U⟩
  · intro h hh hc
    rw [Contains_iff_within] at hc ⊢
    exact hc.trans (heading_within U p h hh)
  · intro h hh hsig
    have hpos : 0 < (productReason U p).length := by
      rw [productReason_length_pos]
      rcases hsig with h1 | h1
      · simp [hfound priceRe h hh h1]
      · simp [hfound cartRe h hh h1]
    unfold Classify
    rw [if_pos (show (productReason U p).length > 0 from hpos)]

/-- C14 (amended), on a page whose cart phrase occurs only in a content heading. -/
theorem Classify_reads_content_headings_witness :
    (Classify basicTables { Content := { Headings := ["Buy now".toList] } }).Label = "product" :=
  (Classify_reads_content_headings basicTables
      { Content := { Headings := ["Buy now".toList] } }).2.2.2.1
    "Buy now".toList (by decide) (Or.inr (by decide))

end WebCrawler
